import Mathlib

/-!
Verification of the Sacramento Events Finder pipelinesrc.

This file gives a shallow embedding, in Lean, of the parts of the program
that the specification talks about:

* `JSONHandler` (src/json_handler.py): extraction of a JSON span from raw
  text, strict JSON parsing (a model of Python `json.loads` restricted to
  null/bool/integer/string/array/object values), structure validation of
  the event payload, and pretty-printing (a model of
  `json.dumps(data, indent=2, ensure_ascii=False)`).
* `OpenAIClient.search_events` (src/openai_client.py): the retry loop,
  modelled as a pure function of an oracle giving the outcome of each
  attempt,
  recording the result, the number of attempts made and the sleeps
  performed.
* `main` (src/main.py): the exit-code logic of the orchestrator.

Strings are modelled as `List Char`.  Machine floats do not occur in the
model: JSON numbers are restricted to integers, which is the fragment the
data of the program itself (counts, prices as strings, flags) exercises.
-/

abbrev Str := List Char

/-- Python `\s` on ASCII text: space, tab, newline, carriage return,
vertical tab, form feed. -/
def isPySpace (c : Char) : Bool :=
  c == '\t' || c == ' ' || c == '\n' || c == '\r' || c == '\x0b' || c == '\x0c'

/-- JSON whitespace as skipped by Python `json.loads` (its `_w` regex
`[ \t\n\r]*`). -/
def isJsonWs (c : Char) : Bool :=
  c == '\t' || c == ' ' || c == '\n' || c == '\r'

/-- Skip JSON whitespace, as `_w(s, idx).end()` in `json.decoder`. -/
def skipWs (s : Str) : Str := s.dropWhile isJsonWs

/-- Python `str.strip()`: drop whitespace from both ends. -/
def pyStrip (s : Str) : Str :=
  ((s.dropWhile isPySpace).reverse.dropWhile isPySpace).reverse

/-! ## The JSON data model

Values as produced by `json.loads` on the fragment the program uses:
`null`, booleans, (arbitrary-precision) integers, strings, arrays and
string-keyed objects.  Arrays and objects are given their own list types
so that all recursion below is plainly structural. -/

mutual
inductive Json where
  | null
  | bool (b : Bool)
  | int (n : Int)
  | str (s : Str)
  | arr (xs : JArr)
  | obj (kvs : JObj)
  deriving DecidableEq

inductive JArr where
  | nil
  | cons (hd : Json) (tl : JArr)
  deriving DecidableEq

inductive JObj where
  | nil
  | cons (k : Str) (v : Json) (tl : JObj)
  deriving DecidableEq
end

def JArr.length : JArr → Nat
  | .nil => 0
  | .cons _ tl => tl.length + 1

/-- Does every element of the array satisfy `p`? -/
def JArr.all (p : Json → Bool) : JArr → Bool
  | .nil => true
  | .cons x tl => p x && tl.all p

/-- Key lookup in an object, as Python `dict.get`. -/
def JObj.lookup : JObj → Str → Option Json
  | .nil, _ => none
  | .cons k v tl, key => if k = key then some v else tl.lookup key

/-- Key membership in an object, as Python `key in dict`. -/
def JObj.hasKey (kvs : JObj) (key : Str) : Bool := (kvs.lookup key).isSome

/-! ## The printer

`format_json` models `json.dumps(data, indent=2, ensure_ascii=False)`.
With `ensure_ascii=False`, `json.encoder` escapes only `\`, `"` and
control characters below `0x20` (with short forms for `\b \t \n \f \r`
and `\u00XX` otherwise); every other character is emitted literally.
With `indent=2` a non-empty container opens with a newline, indents each
item by two spaces per depth, separates items with `,` + newline-indent,
and closes after a newline at the parent depth; empty containers print
as `[]` / `{}`; the key separator is `": "`. -/

def hexDigitChar (n : Nat) : Char :=
  if n < 10 then Char.ofNat (48 + n) else Char.ofNat (87 + n)

def digitChar (n : Nat) : Char := Char.ofNat (48 + n)

/-- One character of a JSON string, escaped as `py_encode_basestring`
in `json.encoder` does with `ensure_ascii=False`. -/
def escChar (c : Char) : Str :=
  if c = '\\' then ['\\', '\\']
  else if c = '"' then ['\\', '"']
  else if c = '\x08' then ['\\', 'b']
  else if c = '\x0c' then ['\\', 'f']
  else if c = '\n' then ['\\', 'n']
  else if c = '\r' then ['\\', 'r']
  else if c = '\t' then ['\\', 't']
  else if c.toNat < 32 then
    '\\' :: 'u' :: '0' :: '0' ::
      [hexDigitChar (c.toNat / 16), hexDigitChar (c.toNat % 16)]
  else [c]

/-- The escaped body of a string followed by the closing quote. -/
def escapeStr : Str → Str
  | [] => ['"']
  | c :: cs => escChar c ++ escapeStr cs

/-- A JSON string token: opening quote, escaped body, closing quote. -/
def encodeString (s : Str) : Str := '"' :: escapeStr s

/-- Decimal digits of `n`, most significant first, via fuel; empty for 0. -/
def decDigitsF : Nat → Nat → Str
  | 0, _ => []
  | _ + 1, 0 => []
  | f + 1, n => decDigitsF f (n / 10) ++ [digitChar (n % 10)]

/-- Decimal representation of a natural number, as Python `str`. -/
def decRepr (n : Nat) : Str := if n = 0 then ['0'] else decDigitsF n n

/-- Decimal representation of an integer, as Python `str`. -/
def intRepr (n : Int) : Str :=
  if n < 0 then '-' :: decRepr n.natAbs else decRepr n.toNat

/-- The newline-plus-indent emitted before an item at depth `d`
(`indent=2`, so `2 * d` spaces). -/
def nlIndent (d : Nat) : Str := '\n' :: List.replicate (2 * d) ' '

mutual
/-- `json.dumps(v, indent=2, ensure_ascii=False)` at nesting depth `d`. -/
def dumpVal (d : Nat) : Json → Str
  | .null => 'n' :: ['u', 'l', 'l']
  | .bool false => 'f' :: ['a', 'l', 's', 'e']
  | .bool true => 't' :: ['r', 'u', 'e']
  | .int n => intRepr n
  | .str s => encodeString s
  | .arr .nil => '[' :: [']']
  | .arr (.cons x tl) =>
      '[' :: (nlIndent (d + 1) ++ dumpItems (d + 1) (.cons x tl) ++ nlIndent d ++ [']'])
  | .obj .nil => ['{', '}']
  | .obj (.cons k v tl) =>
      '{' :: (nlIndent (d + 1) ++ dumpMembers (d + 1) (.cons k v tl) ++ nlIndent d ++ ['}'])

/-- Array items at depth `d`, separated by `,` + newline-indent. -/
def dumpItems (d : Nat) : JArr → Str
  | .nil => []
  | .cons x .nil => dumpVal d x
  | .cons x (.cons y tl) =>
      dumpVal d x ++ ',' :: nlIndent d ++ dumpItems d (.cons y tl)

/-- Object members at depth `d`: `"key": value`, separated by `,` +
newline-indent. -/
def dumpMembers (d : Nat) : JObj → Str
  | .nil => []
  | .cons k v .nil => encodeString k ++ ':' :: ' ' :: dumpVal d v
  | .cons k v (.cons k2 v2 tl) =>
      encodeString k ++ ':' :: ' ' :: dumpVal d v ++
        ',' :: nlIndent d ++ dumpMembers d (.cons k2 v2 tl)
end

/-! ## The parser

A model of Python `json.loads` (strict mode), restricted to the
null/bool/integer/string/array/object fragment: no floats (`.`/`e`
continuations of a number, `NaN`, `Infinity` are not recognised) and no
surrogate `\uXXXX` escapes (which denote no scalar value).  Errors carry
the decoder message and the remaining input at the point of failure,
from which the reported position is computed.  Recursion is by fuel;
`json_loads` supplies `length + 1`, which is enough because every
recursive step first consumes at least one character. -/

abbrev PRes (α : Type) := Except (String × Str) α

def isHexDig (c : Char) : Bool :=
  c.isDigit || (97 ≤ c.toNat && c.toNat ≤ 102) || (65 ≤ c.toNat && c.toNat ≤ 70)

def hexVal (c : Char) : Nat :=
  if c.toNat ≥ 97 then c.toNat - 87
  else if c.toNat ≥ 65 then c.toNat - 55
  else c.toNat - 48

/-- Does the string start with the character `c`? -/
def headIs (s : Str) (c : Char) : Bool :=
  match s with
  | c1 :: _ => c1 = c
  | [] => false

/-- Scan a string body (after the opening quote), as `py_scanstring` in
strict mode: a raw control character or an unknown escape is an error,
`\uXXXX` must be four hex digits and, in this model, must denote a
Unicode scalar value. -/
def parseStrF : Nat → Str → PRes (Str × Str)
  | 0, s => .error ("Unterminated string", s)
  | f + 1, s =>
    match s with
    | [] => .error ("Unterminated string", [])
    | c :: r =>
      if c = '"' then .ok ([], r)
      else if c = '\\' then
        match r with
        | [] => .error ("Unterminated string", [])
        | e :: r2 =>
          if e = 'u' then
            match r2 with
            | a :: b :: c2 :: d2 :: r3 =>
              if isHexDig a && isHexDig b && isHexDig c2 && isHexDig d2 then
                let v := ((hexVal a * 16 + hexVal b) * 16 + hexVal c2) * 16 + hexVal d2
                if 0xD800 ≤ v ∧ v ≤ 0xDFFF then .error ("Unpaired surrogate", r2)
                else do
                  let (cs, r4) ← parseStrF f r3
                  .ok (Char.ofNat v :: cs, r4)
              else .error ("Invalid hex escape", r2)
            | _ => .error ("Invalid hex escape", r2)
          else
            let dec : PRes Char :=
              if e = '"' then .ok '"'
              else if e = '\\' then .ok '\\'
              else if e = '/' then .ok '/'
              else if e = 'b' then .ok '\x08'
              else if e = 'f' then .ok '\x0c'
              else if e = 'n' then .ok '\n'
              else if e = 'r' then .ok '\r'
              else if e = 't' then .ok '\t'
              else .error ("Invalid escape", r)
            do
              let c3 ← dec
              let (cs, r3) ← parseStrF f r2
              .ok (c3 :: cs, r3)
      else if c.toNat < 0x20 then .error ("Invalid control character", s)
      else do
        let (cs, r2) ← parseStrF f r
        .ok (c :: cs, r2)

/-- Value of a big-endian digit run, as accumulated by `int`. -/
def digitsToNat (s : Str) : Nat := s.foldl (fun a c => a * 10 + (c.toNat - 48)) 0

/-- The integer part of the decoder regex `NUMBER_RE`, `(?:0|[1-9]\d*)`:
a lone `0`, or a maximal digit run not starting with `0`. -/
def parseDigitsStrict : Str → Option (Nat × Str)
  | [] => none
  | c :: r =>
    if c = '0' then some (0, r)
    else if c.isDigit then
      some (digitsToNat (c :: r.takeWhile Char.isDigit), r.dropWhile Char.isDigit)
    else none

/-- An optionally signed integer token. -/
def parseIntTok (s : Str) : PRes (Int × Str) :=
  match s with
  | [] => .error ("Expecting value", [])
  | c :: r =>
    if c = '-' then
      match parseDigitsStrict r with
      | some (n, r2) => .ok (-(n : Int), r2)
      | none => .error ("Expecting value", c :: r)
    else
      match parseDigitsStrict (c :: r) with
      | some (n, r2) => .ok ((n : Int), r2)
      | none => .error ("Expecting value", c :: r)

/-- Insert one pair into an object as Python `dict` assignment does:
replace in place if the key is present, else append. -/
def objInsert : JObj → Str → Json → JObj
  | .nil, k, v => .cons k v .nil
  | .cons k2 v2 tl, k, v =>
    if k2 = k then .cons k2 v tl else .cons k2 v2 (objInsert tl k v)

def jdictAux : JObj → JObj → JObj
  | acc, .nil => acc
  | acc, .cons k v tl => jdictAux (objInsert acc k v) tl

/-- `dict(pairs)`: fold the parsed member list into a dict, so that a
repeated key keeps its first position and last value. -/
def jdict (kvs : JObj) : JObj := jdictAux .nil kvs

mutual
/-- `scan_once`: skip whitespace, then read one value. -/
def parseVal : Nat → Str → PRes (Json × Str)
  | 0, s => .error ("Expecting value", s)
  | f + 1, s0 =>
    match skipWs s0 with
    | [] => .error ("Expecting value", [])
    | c :: rest =>
      if c = '{' then
        let s1 := skipWs rest
        if headIs s1 '}' then .ok (.obj .nil, s1.tail)
        else do
          let (kvs, r2) ← parseMembers f s1
          .ok (.obj (jdict kvs), r2)
      else if c = '[' then
        let s1 := skipWs rest
        if headIs s1 ']' then .ok (.arr .nil, s1.tail)
        else do
          let (v, s2) ← parseVal f s1
          let (tl, s3) ← parseArrTail f s2
          .ok (.arr (.cons v tl), s3)
      else if c = '"' then do
        let (str, r) ← parseStrF f rest
        .ok (.str str, r)
      else if c = 'n' then
        match rest with
        | 'u' :: 'l' :: 'l' :: r => .ok (.null, r)
        | _ => .error ("Expecting value", c :: rest)
      else if c = 't' then
        match rest with
        | 'r' :: 'u' :: 'e' :: r => .ok (.bool true, r)
        | _ => .error ("Expecting value", c :: rest)
      else if c = 'f' then
        match rest with
        | 'a' :: 'l' :: 's' :: 'e' :: r => .ok (Json.bool false, r)
        | _ => .error ("Expecting value", c :: rest)
      else if c = '-' || c.isDigit then do
        let (n, r) ← parseIntTok (c :: rest)
        .ok (.int n, r)
      else .error ("Expecting value", c :: rest)
termination_by structural f => f

/-- After one array item: `]` closes, `,` precedes the next item. -/
def parseArrTail : Nat → Str → PRes (JArr × Str)
  | 0, s => .error ("Expecting comma delimiter", s)
  | f + 1, s =>
    let s1 := skipWs s
    if headIs s1 ']' then .ok (.nil, s1.tail)
    else if headIs s1 ',' then do
      let (v, s2) ← parseVal f s1.tail
      let (tl, s3) ← parseArrTail f s2
      .ok (.cons v tl, s3)
    else .error ("Expecting comma delimiter", s1)
termination_by structural f => f

/-- One `"key": value` member and, after `,`, the following members;
`}` closes.  The input starts at the opening quote of the key. -/
def parseMembers : Nat → Str → PRes (JObj × Str)
  | 0, s => .error ("Expecting property name enclosed in double quotes", s)
  | f + 1, s =>
    if headIs s '"' then do
      let (k, r2) ← parseStrF f s.tail
      let r3 := skipWs r2
      if headIs r3 ':' then do
        let (v, r5) ← parseVal f r3.tail
        let r6 := skipWs r5
        if headIs r6 '}' then .ok (.cons k v .nil, r6.tail)
        else if headIs r6 ',' then do
          let (tl, r8) ← parseMembers f (skipWs r6.tail)
          .ok (.cons k v tl, r8)
        else .error ("Expecting comma delimiter", r6)
      else .error ("Expecting colon delimiter", r3)
    else .error ("Expecting property name enclosed in double quotes", s)
termination_by structural f => f
end

/-- `json.loads`: one value, then only whitespace may remain. -/
def json_loads (s : Str) : PRes Json :=
  match parseVal (s.length + 1) s with
  | .error e => .error e
  | .ok (v, rest) =>
    match skipWs rest with
    | [] => .ok v
    | r2 => .error ("Extra data", r2)

deriving instance DecidableEq for Except

/-! ## JSONHandler (src/json_handler.py) -/

/-- One pass of Python `re.sub(pat + r'\s*', '', s)` for a literal
pattern `pat`: scan left to right; at an occurrence of `pat`, delete it
together with the following whitespace run and resume after it
(non-overlapping, no rescan); otherwise keep the character.  Fuel is the
length of `s`; each step consumes at least one character. -/
def subPatF : Nat → Str → Str → Str
  | _, _, [] => []
  | 0, _, s => s
  | f + 1, pat, c :: rest =>
    if pat.isPrefixOf (c :: rest) then
      subPatF f pat (((c :: rest).drop pat.length).dropWhile isPySpace)
    else c :: subPatF f pat rest

def subPat (pat s : Str) : Str := subPatF s.length pat s

/-- The two `re.sub` calls of `extract_json`: first strip
```` ```json ````-tagged fences, then bare ```` ``` ```` fences. -/
def stripFences (t : Str) : Str :=
  subPat ['`', '`', '`'] (subPat ['`', '`', '`', 'j', 's', 'o', 'n'] t)

/-- `re.search(r'\{.*\}', text, re.DOTALL)`: with a greedy `.*`, the
match (when one exists) runs from the first `{` that has some `}` after
it — which is then the first `{` of the text — through the last `}`. -/
def reSearchBraces (t : Str) : Option Str :=
  match t.dropWhile (· ≠ '{') with
  | [] => none
  | c :: r =>
    if r.contains '}' then some (c :: (r.reverse.dropWhile (· ≠ '}')).reverse)
    else none

namespace JSONHandler

/-- `JSONHandler.extract_json`: strip markdown fences, return the brace
span if the fence-stripped text has one, else the fence-stripped text
trimmed.  (The Python annotation is `Optional[str]`, but both `return`
statements return a string.) -/
def extract_json (text : Str) : Option Str :=
  let t := stripFences text
  match reSearchBraces t with
  | some m => some m
  | none => some (pyStrip t)

/-- `JSONHandler.parse_json`: extract a clean span, then `json.loads`;
any failure is caught and turned into `None`. -/
def parse_json (s : Str) : Option Json :=
  match extract_json s with
  | none => none
  | some clean =>
    match json_loads clean with
    | .ok d => some d
    | .error _ => none

/-- Position of a parse failure: characters consumed before the
remaining suffix `rem` of `clean`. -/
def errPos (clean rem : Str) : Nat := clean.length - rem.length

/-- `JSONDecodeError.lineno`: newlines before the position, plus one. -/
def lineOf (clean : Str) (p : Nat) : Nat := (clean.take p).count '\n' + 1

/-- `JSONDecodeError.colno`: characters since the last newline, plus one. -/
def colOf (clean : Str) (p : Nat) : Nat :=
  ((clean.take p).reverse.takeWhile (· ≠ '\n')).length + 1

/-- What `parse_json` prints on a decode error: the message and the
line/column of the failure position. -/
structure ErrReport where
  msg : String
  line : Nat
  col : Nat
  deriving DecidableEq

/-- The error report `parse_json` produces, when it produces one. -/
def parse_json_report (s : Str) : Option ErrReport :=
  match extract_json s with
  | none => none
  | some clean =>
    match json_loads clean with
    | .ok _ => none
    | .error (m, rem) =>
      some ⟨m, lineOf clean (errPos clean rem), colOf clean (errPos clean rem)⟩

/-- The 14 fields `validate_event_structure` requires of every event. -/
def required_fields : List Str :=
  [['t','i','t','l','e'], ['d','e','s','c','r','i','p','t','i','o','n'],
   ['s','t','a','r','t','_','t','i','m','e'], ['e','n','d','_','t','i','m','e'],
   ['v','e','n','u','e'], ['a','d','d','r','e','s','s'],
   ['e','s','t','i','m','a','t','e','d','_','s','i','z','e'], ['c','o','s','t'],
   ['i','s','_','f','r','e','e'], ['i','s','_','s','o','l','d','_','o','u','t'],
   ['t','i','c','k','e','t','_','l','i','n','k'], ['o','r','g','a','n','i','z','e','r','s'],
   ['i','n','s','t','a','g','r','a','m','_','h','a','n','d','l','e','s'],
   ['v','i','b','e','_','d','e','s','c','r','i','p','t','i','o','n']]

/-- Is `needle` a contiguous substring of `hay` (Python `in` on `str`)? -/
def isSubstrOf (needle hay : Str) : Bool :=
  needle.isPrefixOf hay ||
    match hay with
    | [] => false
    | _ :: t => isSubstrOf needle t

/-- Python `key in container` for a string `key` against a parsed JSON
value: key membership on a dict, element equality on a list, substring
on a string; a `TypeError` on anything else. -/
def pyContains (container : Json) (key : Str) : Except Unit Bool :=
  match container with
  | .obj kvs => .ok (kvs.hasKey key)
  | .arr xs => .ok (xs.all fun e => match e with | .str s2 => decide (s2 = key) | _ => false)
  | .str s => .ok (isSubstrOf key s)
  | _ => .error ()

/-- Python `container[key]` for a string `key`: dict lookup; a
`TypeError`/`KeyError` on anything else. -/
def pyIndex (container : Json) (key : Str) : Except Unit Json :=
  match container with
  | .obj kvs => match kvs.lookup key with | some v => .ok v | none => .error ()
  | _ => .error ()

/-- Python `event.get(key)`: only a dict has `.get`; anything else
raises `AttributeError`. -/
def pyGet (event : Json) (key : Str) : Except Unit (Option Json) :=
  match event with
  | .obj kvs => .ok (kvs.lookup key)
  | _ => .error ()

/-- One validation message, standing for one `✗` print of
`validate_event_structure`.  Event indices are 1-based, as printed. -/
inductive VMsg where
  | missingEvents
  | eventsNotList
  | missingField (i : Nat) (f : Str)
  | badHandles (i : Nat)
  | badIsFree (i : Nat)
  | badIsSoldOut (i : Nat)
  | validationError
  deriving DecidableEq

/-- The inner field loop: the first required field absent from `event`,
if any (`for field in required_fields: if field not in event: ...`). -/
def firstMissingField (event : Json) : List Str → Except Unit (Option Str)
  | [] => .ok none
  | f :: fs => do
    let present ← pyContains event f
    if present then firstMissingField event fs else .ok (some f)

/-- The per-event checks, in source order; `some msg` is the violation
that makes the function return `False`. -/
def checkEvent (i : Nat) (event : Json) : Except Unit (Option VMsg) := do
  match ← firstMissingField event required_fields with
  | some f => .ok (some (.missingField i f))
  | none =>
    let hd ← pyGet event ['i','n','s','t','a','g','r','a','m','_','h','a','n','d','l','e','s']
    if !(match hd with | some (.arr _) => true | _ => false) then .ok (some (.badHandles i))
    else
      let fr ← pyGet event ['i','s','_','f','r','e','e']
      if !(match fr with | some (.bool _) => true | _ => false) then .ok (some (.badIsFree i))
      else
        let so ← pyGet event ['i','s','_','s','o','l','d','_','o','u','t']
        if !(match so with | some (.bool _) => true | _ => false) then .ok (some (.badIsSoldOut i))
        else .ok none

/-- The `for i, event in enumerate(data["events"])` loop, returning the
violation that stops it, if any. -/
def checkEvents (i : Nat) : JArr → Except Unit (Option VMsg)
  | .nil => .ok none
  | .cons e tl => do
    match ← checkEvent i e with
    | some m => .ok (some m)
    | none => checkEvents (i + 1) tl

/-- `JSONHandler.validate_event_structure`: the list of violation
messages printed (in order) and the returned boolean.  A `TypeError`
etc. raised inside the `try` is caught and printed as a generic
validation error, returning `False`. -/
def validate_event_structure (data : Json) : List VMsg × Bool :=
  match pyContains data ['e','v','e','n','t','s'] with
  | .error () => ([.validationError], false)
  | .ok false => ([.missingEvents], false)
  | .ok true =>
    match pyIndex data ['e','v','e','n','t','s'] with
    | .error () => ([.validationError], false)
    | .ok events =>
      match events with
      | .arr xs =>
        match checkEvents 1 xs with
        | .error () => ([.validationError], false)
        | .ok (some m) => ([m], false)
        | .ok none => ([], true)
      | _ => ([.eventsNotList], false)

/-- `JSONHandler.format_json(data)` with the default `indent=2`. -/
def format_json (data : Json) : Str := dumpVal 0 data

/-- `JSONHandler.process_response`: parse, validate (the result only
selects a warning print), then always format what was parsed. -/
def process_response (response_text : Str) : Option Str :=
  match parse_json response_text with
  | none => none
  | some data =>
    let _warned := (validate_event_structure data).2
    some (format_json data)

end JSONHandler

/-! ## Config (src/config.py) -/

namespace Config

def MAX_EVENTS : Nat := 10

def MAX_RETRIES : Nat := 3

end Config

/-! ## OpenAIClient.search_events (src/openai_client.py)

The loop `for attempt in range(self.max_retries)` is modelled as a pure
function of an oracle giving the outcome of each attempt: the API call either
raises, or returns a response whose `output_text` is absent, empty, or a
non-empty string.  The model records the returned value, the number of
attempts made, and the list of `time.sleep` durations performed. -/

/-- The outcome of one `self.client.responses.create(...)` call. -/
inductive Attempt where
  | raises (msg : Str)
  | response (output_text : Option Str)

/-- `hasattr(response, "output_text") and response.output_text` (the
attribute test is on the name output_text):
the text must be present and non-empty. -/
def truthyText : Option Str → Bool
  | none => false
  | some s => !s.isEmpty

/-- What one run of `search_events` did. -/
structure SearchTrace where
  result : Option Str
  attemptsMade : Nat
  waits : List Nat
  deriving DecidableEq

/-- The retry loop from attempt index `attempt` on, with `rem` loop
iterations remaining (`rem = max_retries - attempt`).  A non-empty
response returns immediately; an empty response falls through to the
next iteration (no sleep); an exception sleeps `2 ** attempt` if the
attempt was not the last, else returns `None`.  A loop that runs out of
iterations falls through to the final `return None`. -/
def search_from (oracle : Nat → Attempt) : Nat → Nat → SearchTrace
  | 0, _ => ⟨none, 0, []⟩
  | rem + 1, attempt =>
    match oracle attempt with
    | .response o =>
      if truthyText o then ⟨o, 1, []⟩
      else
        let t := search_from oracle rem (attempt + 1)
        ⟨t.result, t.attemptsMade + 1, t.waits⟩
    | .raises _ =>
      if 0 < rem then
        let t := search_from oracle rem (attempt + 1)
        ⟨t.result, t.attemptsMade + 1, 2 ^ attempt :: t.waits⟩
      else ⟨none, 1, []⟩

/-- `OpenAIClient.search_events`, given the per-attempt oracle and
`self.max_retries`. -/
def search_events (oracle : Nat → Attempt) (max_retries : Nat) : SearchTrace :=
  search_from oracle max_retries 0

/-! ## main (src/main.py)

`main` is modelled by its exit status as a function of the outcomes of
the three effectful steps inside the `try` (configuration validation,
client construction, the search call); JSON processing is the pure
`process_response` above.  A `KeyboardInterrupt` anywhere in the `try`
is caught and exits 0; any other exception is caught and exits 1;
`sys.exit(1)` raises `SystemExit`, which `except Exception` does not
catch. -/

/-- How far an effectful step got: it returned, the user interrupted,
or it raised some other exception. -/
inductive StepOut (α : Type) where
  | ok (a : α)
  | kbInterrupt
  | raises (msg : Str)
  deriving DecidableEq

/-- The exit status of `main`. -/
def mainExit (cfg : StepOut Unit) (ini : StepOut Unit)
    (srch : StepOut (Option Str)) : Nat :=
  match cfg with
  | .kbInterrupt => 0
  | .raises _ => 1
  | .ok _ =>
    match ini with
    | .kbInterrupt => 0
    | .raises _ => 1
    | .ok _ =>
      match srch with
      | .kbInterrupt => 0
      | .raises _ => 1
      | .ok none => 1
      | .ok (some response) =>
        match JSONHandler.process_response response with
        | none => 1
        | some _ => 0

/-! ## Concrete data for the claim witnesses -/

def c3input : Str := "\x7b\"events\": [\x7b\"title\": \"x\"\x7d]\x7d".toList

def c3data : Json :=
  .obj (.cons "events".toList
    (.arr (.cons (.obj (.cons "title".toList (.str "x".toList) .nil)) .nil)) .nil)

def c6input : Str := "\x7bnot json\x7d".toList

def JObj.ofList : List (Str × Json) → JObj
  | [] => .nil
  | (k, v) :: tl => .cons k v (JObj.ofList tl)

def c4data : Json :=
  .obj (.cons "events".toList
    (.arr (.cons (.obj (.cons "title".toList (.str "x".toList) .nil))
      (.cons (.obj .nil) .nil))) .nil)

/-- An event that would pass every per-event check of
`validate_event_structure`: a dict carrying all 14 required fields,
with `instagram_handles` a list and `is_free`/`is_sold_out` booleans. -/
def wellShapedEvent (e : Json) : Bool :=
  match e with
  | .obj kvs =>
    (JSONHandler.required_fields.all fun f => kvs.hasKey f) &&
    (match kvs.lookup ['i','n','s','t','a','g','r','a','m','_','h','a','n','d','l','e','s'] with
     | some (.arr _) => true | _ => false) &&
    (match kvs.lookup ['i','s','_','f','r','e','e'] with
     | some (.bool _) => true | _ => false) &&
    (match kvs.lookup ['i','s','_','s','o','l','d','_','o','u','t'] with
     | some (.bool _) => true | _ => false)
  | _ => false

/-- A fully-populated event record. -/
def c8event : Json :=
  .obj (JObj.ofList
    [("title".toList, .str "t".toList), ("description".toList, .str "d".toList),
     ("start_time".toList, .str "s".toList), ("end_time".toList, .str "e".toList),
     ("venue".toList, .str "v".toList), ("address".toList, .str "a".toList),
     ("estimated_size".toList, .str "m".toList), ("cost".toList, .str "c".toList),
     ("is_free".toList, .bool true), ("is_sold_out".toList, .bool false),
     ("ticket_link".toList, .str "u".toList), ("organizers".toList, .str "o".toList),
     ("instagram_handles".toList, .arr .nil),
     ("vibe_description".toList, .str "w".toList)])

def mkEvents : Nat → JArr
  | 0 => .nil
  | n + 1 => .cons c8event (mkEvents n)

def c5witnessInput : Str := "x\x7ba\x7dy".toList

/-! ## Round-trip infrastructure (C10)

Key-uniqueness of parsed values, object append, and the printed form of
the tail of a container, used to phrase the loop invariants of the
round-trip proof. -/

def JObj.appendO : JObj → JObj → JObj
  | .nil, o => o
  | .cons k v tl, o => .cons k v (tl.appendO o)

/-- Pairwise-distinct keys at one object level. -/
def nodupKeys : JObj → Bool
  | .nil => true
  | .cons k _ tl => !tl.hasKey k && nodupKeys tl

mutual
/-- Every object anywhere inside the value has pairwise-distinct keys —
true of everything `json.loads` (dict-based) can produce. -/
def dictNodup : Json → Bool
  | .null => true
  | .bool _ => true
  | .int _ => true
  | .str _ => true
  | .arr xs => dictNodupA xs
  | .obj kvs => nodupKeys kvs && dictNodupO kvs

def dictNodupA : JArr → Bool
  | .nil => true
  | .cons x tl => dictNodup x && dictNodupA tl

def dictNodupO : JObj → Bool
  | .nil => true
  | .cons _ v tl => dictNodup v && dictNodupO tl
end

/-- What follows the first item of a non-empty printed array: either the
closing newline-indent and `]`, or `,`, the item separator, the next
item, and the rest. -/
def arrTailStr (d : Nat) (xs : JArr) (rest : Str) : Str :=
  match xs with
  | .nil => nlIndent d ++ ']' :: rest
  | .cons y tl => ',' :: (nlIndent (d + 1) ++ dumpVal (d + 1) y ++ arrTailStr d tl rest)

/-- What follows the first member of a non-empty printed object. -/
def objTailStr (d : Nat) (kvs : JObj) (rest : Str) : Str :=
  match kvs with
  | .nil => nlIndent d ++ '}' :: rest
  | .cons k v tl =>
      ',' :: (nlIndent (d + 1) ++ encodeString k ++ ':' :: ' ' :: dumpVal (d + 1) v ++
        objTailStr d tl rest)

/-- No leading digit: what a printed integer needs of its right context
so that the maximal-munch digit scan stops at its end. -/
def noDigitHead (rest : Str) : Prop :=
  ∀ c, rest.head? = some c → c.isDigit = false

/-! ## Claims about the retry loop (C1, C2) -/

/-- When every attempt in the window raises, the loop makes all `rem`
attempts, sleeps `2 ^ attemptIndex` after each but the last, and falls
out with `None`. -/
theorem search_from_all_raise (rem : Nat) : ∀ (a : Nat) (oracle : Nat → Attempt),
    0 < rem → (∀ i, a ≤ i → i < a + rem → ∃ m, oracle i = .raises m) →
    search_from oracle rem a =
      ⟨none, rem, (List.range (rem - 1)).map (fun j => 2 ^ (a + j))⟩ := by
  induction rem with
  | zero => intro a oracle h; omega
  | succ rem ih =>
    intro a oracle _ hall
    obtain ⟨m, hm⟩ := hall a (le_refl a) (by omega)
    rcases Nat.eq_zero_or_pos rem with hz | hp
    · subst hz
      simp [search_from, hm]
    · have ht := ih (a + 1) oracle hp (fun i h1 h2 => hall i (by omega) (by omega))
      simp only [search_from, hm, if_pos hp, ht]
      have hr : rem + 1 - 1 = (rem - 1) + 1 := by omega
      rw [hr, List.range_succ_eq_map, List.map_cons, List.map_map]
      refine congrArg (fun w => SearchTrace.mk none (rem + 1) w) ?_
      rw [Nat.add_zero]
      refine congrArg (fun l => 2 ^ a :: l) ?_
      refine congrArg (fun f => List.map f (List.range (rem - 1))) ?_
      funext j
      simp only [Function.comp_apply]
      congr 1
      omega

/-- C1: on repeated transport failure (every attempt raises),
`search_events` makes exactly `max_retries` attempts, waiting
`2^0, 2^1, ...` time units between consecutive attempts (after every
attempt except the last), and returns the failure outcome `None`; the
configured default for `max_retries` is 3. -/
theorem C1_retry_backoff_exhaustion (oracle : Nat → Attempt) (mr : Nat)
    (hmr : 0 < mr) (hall : ∀ i, i < mr → ∃ m, oracle i = .raises m) :
    search_events oracle mr =
      ⟨none, mr, (List.range (mr - 1)).map (fun j => 2 ^ j)⟩ ∧
    Config.MAX_RETRIES = 3 := by
  constructor
  · have h := search_from_all_raise mr 0 oracle hmr (fun i h1 h2 => hall i (by omega))
    rw [search_events, h]
    simp
  · rfl

/-- C1 at the configured default: three raising attempts, two sleeps of
1 and 2 time units, and a `None` result. -/
theorem C1_retry_backoff_exhaustion_witness :
    search_events (fun _ => .raises ['e']) 3 = ⟨none, 3, [1, 2]⟩ :=
  ((C1_retry_backoff_exhaustion (fun _ => .raises ['e']) 3 (by decide)
      (fun _ _ => ⟨['e'], rfl⟩)).1).trans (by decide)

/-- C2 counterexample: a run whose every response arrives empty performs
all three attempts but sleeps never, while a run whose every attempt
raises sleeps 1 and 2 time units — so an empty response is not treated
identically to a transport error for retry purposes. -/
theorem C2_no_backoff_counterexample :
    (search_events (fun _ => .response none) 3).waits = [] ∧
    (search_events (fun _ => .response none) 3).attemptsMade = 3 ∧
    (search_events (fun _ => .raises ['e']) 3).waits = [1, 2] ∧
    (search_events (fun _ => .response none) 3).waits ≠
      (search_events (fun _ => .raises ['e']) 3).waits := by
  decide

/-- A result actually returned by the loop is never the empty string. -/
theorem search_from_result_nonempty (rem : Nat) : ∀ (a : Nat) (oracle : Nat → Attempt)
    (s : Str), (search_from oracle rem a).result = some s → s ≠ [] := by
  induction rem with
  | zero => intro a oracle s h; simp [search_from] at h
  | succ rem ih =>
    intro a oracle s h
    simp only [search_from] at h
    rcases hA : oracle a with m | o <;> simp only [hA] at h
    · by_cases hp : 0 < rem
      · simp only [if_pos hp] at h
        exact ih (a + 1) oracle s h
      · simp only [if_neg hp] at h
        simp at h
    · by_cases ht : truthyText o = true
      · simp only [if_pos ht] at h
        cases o with
        | none => simp [truthyText] at ht
        | some t =>
          have hts : t = s := by simpa using h
          subst hts
          intro hc
          rw [hc] at ht
          simp [truthyText] at ht
      · simp only [if_neg ht] at h
        exact ih (a + 1) oracle s h

/-- When every attempt in the window yields an empty or missing text,
the loop makes all attempts, performs no sleep, and falls out `None`. -/
theorem search_from_all_empty (rem : Nat) : ∀ (a : Nat) (oracle : Nat → Attempt),
    (∀ i, a ≤ i → i < a + rem →
      oracle i = .response none ∨ oracle i = .response (some [])) →
    search_from oracle rem a = ⟨none, rem, []⟩ := by
  induction rem with
  | zero => intro a oracle _; rfl
  | succ rem ih =>
    intro a oracle hall
    have ht := ih (a + 1) oracle (fun i h1 h2 => hall i (by omega) (by omega))
    rcases hall a (le_refl a) (by omega) with h | h <;>
      simp [search_from, h, truthyText, ht]

/-- C2 (amended): a response with empty or missing text is never
returned as success, and triggers a retry and, on exhaustion, the same
`None` outcome as a transport error — but, unlike a transport error, it
is not followed by a backoff sleep: the next attempt starts at once. -/
theorem C2_empty_response_retry_without_backoff :
    (∀ (oracle : Nat → Attempt) (mr : Nat) (s : Str),
      (search_events oracle mr).result = some s → s ≠ []) ∧
    (∀ (mr : Nat) (oracle : Nat → Attempt),
      (∀ i, i < mr → oracle i = .response none ∨ oracle i = .response (some [])) →
      search_events oracle mr = ⟨none, mr, []⟩) :=
  ⟨fun oracle mr s h => search_from_result_nonempty mr 0 oracle s h,
   fun mr oracle hall =>
    search_from_all_empty mr 0 oracle (fun i _ h2 => hall i (by omega))⟩

/-- C2 amended claim at the default configuration: three empty
responses exhaust the attempts with no sleeps and a `None` result. -/
theorem C2_empty_response_retry_without_backoff_witness :
    search_events (fun _ => .response none) 3 = ⟨none, 3, []⟩ :=
  C2_empty_response_retry_without_backoff.2 3 (fun _ => .response none)
    (fun _ _ => Or.inl rfl)

/-! ## Claims about the orchestrator (C7) and the handler (C9, C3, C6) -/

/-- C7: `main` exits 0 exactly on success or user cancellation, and 1
on configuration error, initialisation error, search failure, JSON
processing failure, or any other error inside the run. -/
theorem C7_exit_codes (cfg ini : StepOut Unit) (srch : StepOut (Option Str)) :
    (mainExit cfg ini srch = 0 ∨ mainExit cfg ini srch = 1) ∧
    (mainExit cfg ini srch = 0 ↔
      (cfg = .kbInterrupt ∨
       (cfg = .ok () ∧ ini = .kbInterrupt) ∨
       (cfg = .ok () ∧ ini = .ok () ∧ srch = .kbInterrupt) ∨
       (∃ r f, cfg = .ok () ∧ ini = .ok () ∧ srch = .ok (some r) ∧
         JSONHandler.process_response r = some f))) := by
  cases cfg with
  | ok u => ?_
  | kbInterrupt => cases u_ignored : ini <;> simp [mainExit]
  | raises m => simp [mainExit]
  cases u
  cases ini with
  | ok u => ?_
  | kbInterrupt => simp [mainExit]
  | raises m => simp [mainExit]
  cases u
  cases srch with
  | ok o => ?_
  | kbInterrupt => simp [mainExit]
  | raises m => simp [mainExit]
  cases o with
  | none => simp [mainExit]
  | some r =>
    cases h : JSONHandler.process_response r with
    | none => simp [mainExit, h]
    | some f => simp [mainExit, h]

/-- C9: `extract_json` returns a string on every input, despite its
`Optional[str]` annotation: both return paths produce a string. -/
theorem C9_extract_json_total (t : Str) :
    ∃ m, JSONHandler.extract_json t = some m := by
  rcases h : reSearchBraces (stripFences t) with _ | m
  · exact ⟨pyStrip (stripFences t), by simp [JSONHandler.extract_json, h]⟩
  · exact ⟨m, by simp [JSONHandler.extract_json, h]⟩

/-- C3: whenever the response text parses as JSON, `process_response`
returns the formatted JSON string — the validation step selects only a
warning print and never blocks formatting. -/
theorem C3_format_despite_validation_failure (s : Str) (d : Json)
    (h : JSONHandler.parse_json s = some d) :
    JSONHandler.process_response s = some (JSONHandler.format_json d) := by
  simp [JSONHandler.process_response, h]

/-- C3 at a concrete input whose single event is missing most required
fields: shape validation fails, yet the formatted string is returned. -/
theorem C3_format_despite_validation_failure_witness :
    JSONHandler.parse_json c3input = some c3data ∧
    (JSONHandler.validate_event_structure c3data).2 = false ∧
    JSONHandler.process_response c3input = some (JSONHandler.format_json c3data) :=
  ⟨by decide, by decide,
   C3_format_despite_validation_failure c3input c3data (by decide)⟩

/-- C6: when the extracted span fails strict JSON parsing, `parse_json`
returns `None` (no exception escapes: the decode error is caught), and
the error is reported with its message, line and column. -/
theorem C6_parse_error_reported_and_none (s clean : Str) (m : String) (rem : Str)
    (hex : JSONHandler.extract_json s = some clean)
    (herr : json_loads clean = .error (m, rem)) :
    JSONHandler.parse_json s = none ∧
    JSONHandler.parse_json_report s =
      some ⟨m, JSONHandler.lineOf clean (JSONHandler.errPos clean rem),
            JSONHandler.colOf clean (JSONHandler.errPos clean rem)⟩ := by
  constructor
  · simp [JSONHandler.parse_json, hex, herr]
  · simp [JSONHandler.parse_json_report, hex, herr]

/-- C6 at the example of the spec, `"{not json}"`: the parse fails at line 1,
column 2, is reported, and `parse_json` returns `None`. -/
theorem C6_parse_error_reported_and_none_witness :
    JSONHandler.parse_json c6input = none ∧
    JSONHandler.parse_json_report c6input =
      some ⟨"Expecting property name enclosed in double quotes", 1, 2⟩ := by
  have h := C6_parse_error_reported_and_none c6input c6input
    "Expecting property name enclosed in double quotes" ("not json\x7d".toList)
    (by decide) (by decide)
  exact ⟨h.1, h.2.trans (by decide)⟩

/-! ## Claims about the validator (C4, C8) -/

/-- C4 counterexample: with two malformed events — the first missing 13
of the 14 required fields, the second missing all of them — the
validator reports exactly one violation (the first event missing its
`description`); the offending fields `venue` (event 1) and `title`
(event 2), though required and absent, are never reported. -/
theorem C4_all_violations_counterexample :
    (JSONHandler.validate_event_structure c4data).1 =
      [.missingField 1 "description".toList] ∧
    JSONHandler.VMsg.missingField 1 "venue".toList ∉
      (JSONHandler.validate_event_structure c4data).1 ∧
    JSONHandler.VMsg.missingField 2 "title".toList ∉
      (JSONHandler.validate_event_structure c4data).1 ∧
    "venue".toList ∈ JSONHandler.required_fields ∧
    JSONHandler.pyContains (.obj (.cons "title".toList (.str "x".toList) .nil))
      "venue".toList = .ok false ∧
    "title".toList ∈ JSONHandler.required_fields ∧
    JSONHandler.pyContains (.obj .nil) "title".toList = .ok false := by
  decide

/-- C4 (amended): shape validation reports only the first offending
field of the first offending event and then stops — it emits at most
one violation message, and it emits none exactly when it returns
`True`. -/
theorem C4_first_violation_stops (d : Json) :
    (JSONHandler.validate_event_structure d).1.length ≤ 1 ∧
    ((JSONHandler.validate_event_structure d).2 = true ↔
      (JSONHandler.validate_event_structure d).1 = []) := by
  unfold JSONHandler.validate_event_structure
  rcases h1 : JSONHandler.pyContains d ['e','v','e','n','t','s'] with u | b
  · simp
  · cases b
    · simp
    · rcases h2 : JSONHandler.pyIndex d ['e','v','e','n','t','s'] with u | events
      · simp
      · cases events <;> try simp
        rename_i xs
        rcases h3 : JSONHandler.checkEvents 1 xs with u | om
        · simp [h3]
        · cases om <;> simp [h3]

/-- C4 amended claim at the counterexample input: one message, `False`. -/
theorem C4_first_violation_stops_witness :
    (JSONHandler.validate_event_structure c4data).1.length ≤ 1 ∧
    ((JSONHandler.validate_event_structure c4data).2 = true ↔
      (JSONHandler.validate_event_structure c4data).1 = []) :=
  C4_first_violation_stops c4data

theorem except_ok_bind {ε α β : Type} (x : α) (f : α → Except ε β) :
    (Except.ok (ε := ε) x >>= f) = f x := rfl

theorem firstMissingField_all_present (kvs : JObj) :
    ∀ fs : List Str, (fs.all fun f => kvs.hasKey f) = true →
    JSONHandler.firstMissingField (.obj kvs) fs = .ok none := by
  intro fs
  induction fs with
  | nil => intro _; rfl
  | cons f fs ih =>
    intro h
    rw [List.all_cons, Bool.and_eq_true] at h
    simp only [JSONHandler.firstMissingField, JSONHandler.pyContains, except_ok_bind]
    rw [if_pos h.1]
    exact ih h.2

theorem checkEvent_wellShaped (i : Nat) (e : Json) (h : wellShapedEvent e = true) :
    JSONHandler.checkEvent i e = .ok none := by
  cases e with
  | null => exact absurd h (by simp [wellShapedEvent])
  | bool b => exact absurd h (by simp [wellShapedEvent])
  | int n => exact absurd h (by simp [wellShapedEvent])
  | str s => exact absurd h (by simp [wellShapedEvent])
  | arr xs => exact absurd h (by simp [wellShapedEvent])
  | obj kvs =>
    simp only [wellShapedEvent] at h
    rw [Bool.and_eq_true, Bool.and_eq_true, Bool.and_eq_true] at h
    obtain ⟨⟨⟨hall, hh⟩, hf⟩, hs⟩ := h
    obtain ⟨a1, hl1⟩ :
        ∃ a, kvs.lookup ['i','n','s','t','a','g','r','a','m','_','h','a','n','d','l','e','s'] =
          some (.arr a) := by
      rcases hE : kvs.lookup ['i','n','s','t','a','g','r','a','m','_','h','a','n','d','l','e','s']
        with _ | v <;> rw [hE] at hh
      · simp at hh
      · cases v <;> simp at hh
        exact ⟨_, rfl⟩
    obtain ⟨b2, hl2⟩ : ∃ b, kvs.lookup ['i','s','_','f','r','e','e'] = some (.bool b) := by
      rcases hE : kvs.lookup ['i','s','_','f','r','e','e'] with _ | v <;> rw [hE] at hf
      · simp at hf
      · cases v <;> simp at hf
        exact ⟨_, rfl⟩
    obtain ⟨b3, hl3⟩ :
        ∃ b, kvs.lookup ['i','s','_','s','o','l','d','_','o','u','t'] = some (.bool b) := by
      rcases hE : kvs.lookup ['i','s','_','s','o','l','d','_','o','u','t'] with _ | v <;>
        rw [hE] at hs
      · simp at hs
      · cases v <;> simp at hs
        exact ⟨_, rfl⟩
    have h1 := firstMissingField_all_present kvs JSONHandler.required_fields hall
    simp [JSONHandler.checkEvent, h1, except_ok_bind, JSONHandler.pyGet, hl1, hl2, hl3]

theorem checkEvents_all_wellShaped :
    ∀ (xs : JArr) (i : Nat), xs.all wellShapedEvent = true →
    JSONHandler.checkEvents i xs = .ok none
  | .nil, _, _ => rfl
  | .cons e tl, i, h => by
    rw [JArr.all, Bool.and_eq_true] at h
    simp only [JSONHandler.checkEvents, checkEvent_wellShaped i e h.1, except_ok_bind]
    exact checkEvents_all_wellShaped tl (i + 1) h.2

/-- C8: the validator accepts a well-shaped event list of any length —
zero events, or more than the configured `MAX_EVENTS = 10` — reporting
no violation; the count is never a cause for rejection. -/
theorem C8_count_not_enforced (xs : JArr) (h : xs.all wellShapedEvent = true) :
    JSONHandler.validate_event_structure
      (.obj (.cons ['e','v','e','n','t','s'] (.arr xs) .nil)) = ([], true) ∧
    Config.MAX_EVENTS = 10 := by
  constructor
  · simp [JSONHandler.validate_event_structure, JSONHandler.pyContains,
      JObj.hasKey, JObj.lookup, JSONHandler.pyIndex,
      checkEvents_all_wellShaped xs 1 h]
  · rfl

/-- C8 with eleven well-shaped events — one more than `MAX_EVENTS`:
validation still returns no violations and `True`. -/
theorem C8_count_not_enforced_witness :
    JSONHandler.validate_event_structure
      (.obj (.cons ['e','v','e','n','t','s'] (.arr (mkEvents 11)) .nil)) = ([], true) ∧
    (mkEvents 11).length = 11 ∧ Config.MAX_EVENTS < (mkEvents 11).length :=
  ⟨(C8_count_not_enforced (mkEvents 11) (by decide)).1, by decide, by decide⟩

/-! ## Claim C5: the extracted span -/

theorem dropWhile_head_false {p : Char → Bool} :
    ∀ (l : Str) (c : Char) (r : Str), l.dropWhile p = c :: r → p c = false := by
  intro l
  induction l with
  | nil => intro c r h; simp at h
  | cons a t ih =>
    intro c r h
    rw [List.dropWhile_cons] at h
    by_cases hp : p a = true
    · rw [if_pos hp] at h
      exact ih c r h
    · rw [if_neg hp] at h
      cases h
      simpa using hp

theorem extract_json_eq (t : Str) :
    JSONHandler.extract_json t =
      match reSearchBraces (stripFences t) with
      | some m => some m
      | none => some (pyStrip (stripFences t)) := rfl

/-- C5 counterexample: on `"``` abc"` (a fence, no braces) the code
returns the trimmed fence-stripped text `"abc"`, not the trimmed
original text `"``` abc"`. -/
theorem C5_trimmed_original_counterexample :
    JSONHandler.extract_json "``` abc".toList = some "abc".toList ∧
    pyStrip ("``` abc".toList) = "``` abc".toList ∧
    JSONHandler.extract_json "``` abc".toList ≠ some (pyStrip "``` abc".toList) := by
  decide

/-- C5 (amended): after stripping markdown fences, if the remaining
text has a `{` with a `}` after it, the result is the span from the
first `{` through the last `}` (nothing before it holds a `{`, nothing
after it holds a `}`); otherwise the result is the trimmed
fence-stripped text.  On the example of the spec the span is `{"a":1}`. -/
theorem C5_first_to_last_brace_span :
    (JSONHandler.extract_json ("prefix ```json \x7b\"a\":1\x7d ``` suffix".toList) =
      some ("\x7b\"a\":1\x7d".toList)) ∧
    (∀ (t m : Str), JSONHandler.extract_json t = some m →
      (m.head? = some '{' ∧ m.getLast? = some '}' ∧
        ∃ pre post, stripFences t = pre ++ m ++ post ∧
          (∀ c ∈ pre, c ≠ '{') ∧ (∀ c ∈ post, c ≠ '}')) ∨
      ((¬ ∃ pre mid post, stripFences t = pre ++ '{' :: mid ++ '}' :: post) ∧
        m = pyStrip (stripFences t))) := by
  constructor
  · decide
  · intro t m hm
    rw [extract_json_eq] at hm
    rcases hd : (stripFences t).dropWhile (· ≠ '{') with _ | ⟨c, r⟩
    · -- no `{` at all in the fence-stripped text
      have hre : reSearchBraces (stripFences t) = none := by
        rw [reSearchBraces, hd]
      rw [hre] at hm
      right
      refine ⟨?_, (Option.some.injEq _ _ ▸ hm).symm⟩
      rintro ⟨pre, mid, post, hdec⟩
      have hall := List.dropWhile_eq_nil_iff.mp hd
      have : '{' ∈ stripFences t := by
        rw [hdec]
        simp
      have := hall '{' this
      simp at this
    · have hc : c = '{' := by
        have := dropWhile_head_false (stripFences t) c r hd
        simpa using this
      subst hc
      by_cases hcont : r.contains '}'
      · -- a `}` follows the first `{`: the span case
        have hre : reSearchBraces (stripFences t) =
            some ('{' :: (r.reverse.dropWhile (· ≠ '}')).reverse) := by
          rw [reSearchBraces, hd]
          exact if_pos hcont
        rw [hre] at hm
        have hmval : m = '{' :: (r.reverse.dropWhile (· ≠ '}')).reverse :=
          (Option.some.injEq _ _ ▸ hm).symm
        subst hmval
        left
        have hsplitr : r = (r.reverse.dropWhile (· ≠ '}')).reverse ++
            (r.reverse.takeWhile (· ≠ '}')).reverse := by
          conv_lhs => rw [← List.reverse_reverse r,
            ← List.takeWhile_append_dropWhile (· ≠ '}') r.reverse]
          rw [List.reverse_append]
        have hrd_ne : r.reverse.dropWhile (· ≠ '}') ≠ [] := by
          intro h0
          have hall := List.dropWhile_eq_nil_iff.mp h0
          have hmem : '}' ∈ r.reverse := by
            rw [List.mem_reverse]
            exact List.elem_iff.mp hcont
          have := hall '}' hmem
          simp at this
        obtain ⟨d0, dr, hd0⟩ : ∃ d0 dr, r.reverse.dropWhile (· ≠ '}') = d0 :: dr := by
          rcases h : r.reverse.dropWhile (· ≠ '}') with _ | ⟨d0, dr⟩
          · exact absurd h hrd_ne
          · exact ⟨d0, dr, rfl⟩
        have hd0v : d0 = '}' := by
          have := dropWhile_head_false r.reverse d0 dr hd0
          simpa using this
        refine ⟨rfl, ?_, (stripFences t).takeWhile (· ≠ '{'),
          (r.reverse.takeWhile (· ≠ '}')).reverse, ?_, ?_, ?_⟩
        · rw [hd0, hd0v, List.reverse_cons]
          rw [show '{' :: (dr.reverse ++ ['}']) = ('{' :: dr.reverse) ++ ['}'] from rfl]
          exact List.getLast?_concat _
        · conv_lhs => rw [← List.takeWhile_append_dropWhile (· ≠ '{') (stripFences t), hd]
          conv_lhs => rw [hsplitr]
          simp
        · intro c hcmem
          have := List.mem_takeWhile_imp hcmem
          simpa using this
        · intro c hcmem
          rw [List.mem_reverse] at hcmem
          have := List.mem_takeWhile_imp hcmem
          simpa using this
      · -- a `{` but no `}` after it
        have hre : reSearchBraces (stripFences t) = none := by
          rw [reSearchBraces, hd]
          exact if_neg hcont
        rw [hre] at hm
        right
        refine ⟨?_, (Option.some.injEq _ _ ▸ hm).symm⟩
        rintro ⟨pre, mid, post, hdec⟩
        have hnotin : '}' ∉ r := fun hmem => hcont (List.elem_iff.mpr hmem)
        have h1 : stripFences t = (stripFences t).takeWhile (· ≠ '{') ++ '{' :: r := by
          conv_lhs => rw [← List.takeWhile_append_dropWhile (· ≠ '{') (stripFences t), hd]
        -- the closing brace of the decomposition sits at index |pre| + 1 + |mid|
        have hu2 : (stripFences t)[pre.length + 1 + mid.length]? = some '}' := by
          rw [hdec, List.getElem?_append_right
            (show (pre ++ '{' :: mid).length ≤ pre.length + 1 + mid.length by
              simp only [List.length_append, List.length_cons]; omega)]
          rw [show pre.length + 1 + mid.length - (pre ++ '{' :: mid).length = 0 by
            simp only [List.length_append, List.length_cons]; omega]
          simp
        -- the first `{` of the text is at index |takeWhile|, so |pre| ≥ |takeWhile|
        have hp1 : ((stripFences t).takeWhile (· ≠ '{')).length ≤ pre.length := by
          by_contra hlt
          push_neg at hlt
          have hg : (stripFences t)[pre.length]? = some '{' := by
            rw [hdec, List.getElem?_append,
              if_pos (by simp only [List.length_append, List.length_cons]; omega)]
            rw [List.getElem?_append_right (le_refl pre.length)]
            simp
          rw [h1, List.getElem?_append] at hg
          rw [if_pos (by omega)] at hg
          have hmem : '{' ∈ (stripFences t).takeWhile (· ≠ '{') := List.getElem?_mem hg
          have := List.mem_takeWhile_imp hmem
          simp at this
        -- hence the `}` lies inside `r`, which has none
        rw [h1, List.getElem?_append_right (by omega :
          ((stripFences t).takeWhile (· ≠ '{')).length ≤ pre.length + 1 + mid.length)] at hu2
        rcases hk2 : pre.length + 1 + mid.length -
            ((stripFences t).takeWhile (· ≠ '{')).length with _ | k
        · omega
        · rw [hk2, List.getElem?_cons_succ] at hu2
          exact hnotin (List.getElem?_mem hu2)

/-- C5 amended claim at the concrete input `"x{a}y"`. -/
theorem C5_first_to_last_brace_span_witness :
    ((("\x7ba\x7d".toList : Str).head? = some '{' ∧
      ("\x7ba\x7d".toList : Str).getLast? = some '}' ∧
      ∃ pre post, stripFences c5witnessInput = pre ++ "\x7ba\x7d".toList ++ post ∧
        (∀ c ∈ pre, c ≠ '{') ∧ (∀ c ∈ post, c ≠ '}')) ∨
     ((¬ ∃ pre mid post, stripFences c5witnessInput = pre ++ '{' :: mid ++ '}' :: post) ∧
       "\x7ba\x7d".toList = pyStrip (stripFences c5witnessInput))) :=
  C5_first_to_last_brace_span.2 c5witnessInput "\x7ba\x7d".toList (by decide)

/-! ## Round-trip lemmas (C10)

### Whitespace and character-class lemmas -/

theorem skipWs_cons_not_ws (c : Char) (s : Str) (h : isJsonWs c = false) :
    skipWs (c :: s) = c :: s := by
  simp [skipWs, List.dropWhile_cons, h]

theorem skipWs_append_ws : ∀ (w s : Str), (∀ c ∈ w, isJsonWs c = true) →
    skipWs (w ++ s) = skipWs s := by
  intro w
  induction w with
  | nil => intro s _; rfl
  | cons c t ih =>
    intro s hw
    have hc := hw c (by simp)
    simp only [List.cons_append, skipWs, List.dropWhile_cons, hc, if_pos]
    exact ih s (fun c2 h2 => hw c2 (by simp [h2]))

theorem nlIndent_ws (d : Nat) : ∀ c ∈ nlIndent d, isJsonWs c = true := by
  intro c hc
  rw [nlIndent, List.mem_cons] at hc
  rcases hc with h | h
  · subst h; decide
  · rw [List.eq_of_mem_replicate h]; decide

theorem headIs_cons (c : Char) (r : Str) (c2 : Char) :
    headIs (c :: r) c2 = decide (c = c2) := rfl

theorem isDigit_toNat (c : Char) (h : c.isDigit = true) :
    48 ≤ c.toNat ∧ c.toNat ≤ 57 := by
  simp [Char.isDigit] at h
  exact ⟨h.1, h.2⟩

/-- A decimal digit is none of the characters the value dispatch, the
container loops or the whitespace skipper look for. -/
theorem isDigit_ne (c : Char) (h : c.isDigit = true) :
    c ≠ '{' ∧ c ≠ '[' ∧ c ≠ '"' ∧ c ≠ 'n' ∧ c ≠ 't' ∧ c ≠ 'f' ∧ c ≠ '-' ∧
    c ≠ ']' ∧ c ≠ ',' ∧ c ≠ '}' ∧ c ≠ ':' ∧ isJsonWs c = false := by
  obtain ⟨h1, h2⟩ := isDigit_toNat c h
  have hne : ∀ c2 : Char, c2.toNat < 48 ∨ 57 < c2.toNat → c ≠ c2 := by
    intro c2 hb he
    subst he
    omega
  refine ⟨hne _ (by decide), hne _ (by decide), hne _ (by decide), hne _ (by decide),
    hne _ (by decide), hne _ (by decide), hne _ (by decide), hne _ (by decide),
    hne _ (by decide), hne _ (by decide), hne _ (by decide), ?_⟩
  simp only [isJsonWs, Bool.or_eq_false_iff, beq_eq_false_iff_ne, ne_eq]
  exact ⟨⟨⟨hne _ (by decide), hne _ (by decide)⟩, hne _ (by decide)⟩, hne _ (by decide)⟩

/-! ### Decimal printing and scanning -/

theorem digitChar_spec (dv : Nat) (h : dv < 10) :
    (digitChar dv).isDigit = true ∧ (digitChar dv).toNat = 48 + dv ∧
    (digitChar dv = '0' ↔ dv = 0) := by
  interval_cases dv <;> exact ⟨by decide, by decide, by decide⟩

theorem decDigitsF_zero : ∀ f, decDigitsF f 0 = [] := by
  intro f
  cases f <;> rfl

theorem digitsToNat_append_single (l : Str) (c : Char) :
    digitsToNat (l ++ [c]) = digitsToNat l * 10 + (c.toNat - 48) := by
  simp [digitsToNat, List.foldl_append]

theorem decDigitsF_spec : ∀ (f n : Nat), 0 < n → n ≤ f →
    decDigitsF f n ≠ [] ∧ (∀ c ∈ decDigitsF f n, c.isDigit = true) ∧
    (decDigitsF f n).head? ≠ some '0' ∧ digitsToNat (decDigitsF f n) = n := by
  intro f
  induction f with
  | zero => intro n h1 h2; omega
  | succ f ih =>
    intro n h1 _
    have heq : decDigitsF (f + 1) n = decDigitsF f (n / 10) ++ [digitChar (n % 10)] := by
      rw [decDigitsF]
      omega
    rcases Nat.eq_zero_or_pos (n / 10) with hq | hq
    · have h10 : n < 10 := by omega
      have hmod : n % 10 = n := Nat.mod_eq_of_lt h10
      obtain ⟨hdig, _, hzero⟩ := digitChar_spec (n % 10) (by omega)
      rw [heq, hq, decDigitsF_zero, List.nil_append]
      refine ⟨by simp, ?_, ?_, ?_⟩
      · intro c hc
        rw [List.mem_singleton] at hc
        rw [hc]
        exact hdig
      · simp only [List.head?_cons, ne_eq, Option.some.injEq]
        intro hbad
        rw [hzero, hmod] at hbad
        omega
      · rw [show digitsToNat [digitChar (n % 10)] =
            digitsToNat ([] ++ [digitChar (n % 10)]) from rfl,
          digitsToNat_append_single, (digitChar_spec (n % 10) (by omega)).2.1]
        simp [digitsToNat]
        omega
    · have hle : n / 10 ≤ f := by
        have := Nat.div_lt_self h1 (by norm_num : 1 < 10)
        omega
      obtain ⟨hne, hall, hhd, hval⟩ := ih (n / 10) hq hle
      obtain ⟨c0, cs0, hc0⟩ : ∃ c0 cs0, decDigitsF f (n / 10) = c0 :: cs0 := by
        rcases hx : decDigitsF f (n / 10) with _ | ⟨c0, cs0⟩
        · exact absurd hx hne
        · exact ⟨c0, cs0, rfl⟩
      rw [heq]
      refine ⟨by simp [hc0], ?_, ?_, ?_⟩
      · intro c hc
        rw [List.mem_append, List.mem_singleton] at hc
        rcases hc with hc | hc
        · exact hall c hc
        · rw [hc]
          exact (digitChar_spec (n % 10) (by omega)).1
      · rw [hc0, List.cons_append, List.head?_cons]
        rw [hc0, List.head?_cons] at hhd
        exact hhd
      · rw [digitsToNat_append_single, hval, (digitChar_spec (n % 10) (by omega)).2.1]
        omega

theorem decRepr_spec (n : Nat) :
    decRepr n ≠ [] ∧ (∀ c ∈ decRepr n, c.isDigit = true) ∧
    digitsToNat (decRepr n) = n ∧ (0 < n → (decRepr n).head? ≠ some '0') := by
  rcases Nat.eq_zero_or_pos n with h | h
  · subst h
    exact ⟨by decide, by decide, by decide, by omega⟩
  · rw [decRepr, if_neg (by omega)]
    obtain ⟨h1, h2, h3, h4⟩ := decDigitsF_spec n n h (le_refl n)
    exact ⟨h1, h2, h4, fun _ => h3⟩

theorem takeWhile_append_all {p : Char → Bool} : ∀ (l l2 : Str),
    (∀ c ∈ l, p c = true) → (l ++ l2).takeWhile p = l ++ l2.takeWhile p := by
  intro l
  induction l with
  | nil => intro l2 _; rfl
  | cons c t ih =>
    intro l2 h
    simp only [List.cons_append, List.takeWhile_cons, h c (by simp), if_pos]
    rw [ih l2 (fun c2 h2 => h c2 (by simp [h2]))]

theorem dropWhile_append_all {p : Char → Bool} : ∀ (l l2 : Str),
    (∀ c ∈ l, p c = true) → (l ++ l2).dropWhile p = l2.dropWhile p := by
  intro l
  induction l with
  | nil => intro l2 _; rfl
  | cons c t ih =>
    intro l2 h
    simp only [List.cons_append, List.dropWhile_cons, h c (by simp), if_pos]
    exact ih l2 (fun c2 h2 => h c2 (by simp [h2]))

theorem takeWhile_head_no (s : Str) (p : Char → Bool)
    (h : ∀ c, s.head? = some c → p c = false) :
    s.takeWhile p = [] ∧ s.dropWhile p = s := by
  cases s with
  | nil => exact ⟨rfl, rfl⟩
  | cons c t =>
    have hc := h c rfl
    simp [List.takeWhile_cons, List.dropWhile_cons, hc]

theorem parseDigitsStrict_decRepr (n : Nat) (rest : Str)
    (hrest : noDigitHead rest) :
    parseDigitsStrict (decRepr n ++ rest) = some (n, rest) := by
  rcases Nat.eq_zero_or_pos n with h | h
  · subst h
    rw [show decRepr 0 = ['0'] from rfl]
    rfl
  · obtain ⟨hne, hall, hval, hhd⟩ := decRepr_spec n
    obtain ⟨c0, cs0, hc0⟩ : ∃ c0 cs0, decRepr n = c0 :: cs0 := by
      rcases hx : decRepr n with _ | ⟨c0, cs0⟩
      · exact absurd hx hne
      · exact ⟨c0, cs0, rfl⟩
    have hd0 : c0.isDigit = true := hall c0 (by simp [hc0])
    have hz : ¬ c0 = '0' := by
      intro hbad
      exact (hhd h) (by rw [hc0, hbad]; rfl)
    have htk : (cs0 ++ rest).takeWhile Char.isDigit = cs0 := by
      rw [takeWhile_append_all cs0 rest (fun c2 h2 => hall c2 (by simp [hc0, h2])),
        (takeWhile_head_no rest Char.isDigit hrest).1, List.append_nil]
    have hdr : (cs0 ++ rest).dropWhile Char.isDigit = rest := by
      rw [dropWhile_append_all cs0 rest (fun c2 h2 => hall c2 (by simp [hc0, h2])),
        (takeWhile_head_no rest Char.isDigit hrest).2]
    rw [hc0, List.cons_append, parseDigitsStrict]
    rw [if_neg hz, if_pos hd0, htk, hdr]
    rw [← hc0, hval]

theorem intRepr_digits_or_neg (n : Int) :
    (∃ c cs, intRepr n = c :: cs ∧ (c = '-' ∨ c.isDigit = true)) := by
  rw [intRepr]
  by_cases hn : n < 0
  · rw [if_pos hn]
    exact ⟨'-', decRepr n.natAbs, rfl, Or.inl rfl⟩
  · rw [if_neg hn]
    obtain ⟨hne, hall, _, _⟩ := decRepr_spec n.toNat
    rcases hx : decRepr n.toNat with _ | ⟨c0, cs0⟩
    · exact absurd hx hne
    · exact ⟨c0, cs0, rfl, Or.inr (hall c0 (by simp [hx]))⟩

theorem parseIntTok_intRepr (n : Int) (rest : Str) (hrest : noDigitHead rest) :
    parseIntTok (intRepr n ++ rest) = .ok (n, rest) := by
  by_cases hn : n < 0
  · rw [intRepr, if_pos hn, List.cons_append, parseIntTok]
    rw [if_pos rfl, parseDigitsStrict_decRepr n.natAbs rest hrest]
    have hres : -(n.natAbs : Int) = n := by omega
    show Except.ok (-(n.natAbs : Int), rest) = Except.ok (n, rest)
    rw [hres]
  · rw [intRepr, if_neg hn]
    obtain ⟨hne, hall, hval, _⟩ := decRepr_spec n.toNat
    obtain ⟨c0, cs0, hc0⟩ : ∃ c0 cs0, decRepr n.toNat = c0 :: cs0 := by
      rcases hx : decRepr n.toNat with _ | ⟨c0, cs0⟩
      · exact absurd hx hne
      · exact ⟨c0, cs0, rfl⟩
    have hd0 : c0.isDigit = true := hall c0 (by simp [hc0])
    have hnm : ¬ c0 = '-' := (isDigit_ne c0 hd0).2.2.2.2.2.2.1.symm ∘ Eq.symm
    rw [hc0, List.cons_append, parseIntTok, if_neg hnm, ← List.cons_append, ← hc0,
      parseDigitsStrict_decRepr n.toNat rest hrest]
    have hres : (n.toNat : Int) = n := by omega
    show Except.ok ((n.toNat : Int), rest) = Except.ok (n, rest)
    rw [hres]

/-! ### String escaping round trip -/

theorem hexDigitChar_spec (v : Nat) (h : v < 16) :
    isHexDig (hexDigitChar v) = true ∧ hexVal (hexDigitChar v) = v := by
  interval_cases v <;> exact ⟨by decide, by decide⟩

theorem parseStrF_u (f : Nat) (a b c2 d2 : Char) (r3 : Str) :
    parseStrF (f + 1) ('\\' :: 'u' :: a :: b :: c2 :: d2 :: r3) =
      (if isHexDig a && isHexDig b && isHexDig c2 && isHexDig d2 then
        if 0xD800 ≤ ((hexVal a * 16 + hexVal b) * 16 + hexVal c2) * 16 + hexVal d2 ∧
            ((hexVal a * 16 + hexVal b) * 16 + hexVal c2) * 16 + hexVal d2 ≤ 0xDFFF then
          .error ("Unpaired surrogate", a :: b :: c2 :: d2 :: r3)
        else do
          let (cs, r4) ← parseStrF f r3
          .ok (Char.ofNat (((hexVal a * 16 + hexVal b) * 16 + hexVal c2) * 16 + hexVal d2) :: cs,
            r4)
      else .error ("Invalid hex escape", a :: b :: c2 :: d2 :: r3)) := rfl

theorem rt_escapeStr : ∀ (s : Str) (f : Nat) (rest : Str), s.length < f →
    parseStrF f (escapeStr s ++ rest) = .ok (s, rest) := by
  intro s
  induction s with
  | nil =>
    intro f rest hf
    obtain ⟨f', rfl⟩ : ∃ f', f = f' + 1 := ⟨f - 1, by omega⟩
    rfl
  | cons c cs ih =>
    intro f rest hf
    obtain ⟨f', rfl⟩ : ∃ f', f = f' + 1 := ⟨f - 1, by omega⟩
    have ihcs := ih f' rest (by simp at hf; omega)
    have hstep : escapeStr (c :: cs) ++ rest = escChar c ++ (escapeStr cs ++ rest) := by
      rw [escapeStr, List.append_assoc]
    by_cases h1 : c = '\\'
    · subst h1
      rw [hstep, show escChar '\\' = ['\\', '\\'] from rfl]
      simp [parseStrF, ihcs, except_ok_bind]
    · by_cases h2 : c = '"'
      · subst h2
        rw [hstep, show escChar '"' = ['\\', '"'] from rfl]
        simp [parseStrF, ihcs, except_ok_bind]
      · by_cases hlt : c.toNat < 0x20
        · by_cases h3 : c = '\x08'
          · subst h3
            rw [hstep, show escChar '\x08' = ['\\', 'b'] from rfl]
            simp [parseStrF, ihcs, except_ok_bind]
          · by_cases h4 : c = '\x0c'
            · subst h4
              rw [hstep, show escChar '\x0c' = ['\\', 'f'] from rfl]
              simp [parseStrF, ihcs, except_ok_bind]
            · by_cases h5 : c = '\n'
              · subst h5
                rw [hstep, show escChar '\n' = ['\\', 'n'] from rfl]
                simp [parseStrF, ihcs, except_ok_bind]
              · by_cases h6 : c = '\r'
                · subst h6
                  rw [hstep, show escChar '\r' = ['\\', 'r'] from rfl]
                  simp [parseStrF, ihcs, except_ok_bind]
                · by_cases h7 : c = '\t'
                  · subst h7
                    rw [hstep, show escChar '\t' = ['\\', 't'] from rfl]
                    simp [parseStrF, ihcs, except_ok_bind]
                  · -- generic control character: \u00XX
                    have hesc : escChar c =
                        '\\' :: 'u' :: '0' :: '0' :: hexDigitChar (c.toNat / 16) ::
                         [hexDigitChar (c.toNat % 16)] := by
                      rw [escChar, if_neg h1, if_neg h2, if_neg h3, if_neg h4,
                        if_neg h5, if_neg h6, if_neg h7, if_pos hlt]
                    obtain ⟨hhx1, hhv1⟩ := hexDigitChar_spec (c.toNat / 16) (by omega)
                    obtain ⟨hhx2, hhv2⟩ := hexDigitChar_spec (c.toNat % 16) (by omega)
                    rw [hstep, hesc]
                    have hv : ((hexVal '0' * 16 + hexVal '0') * 16 +
                        hexVal (hexDigitChar (c.toNat / 16))) * 16 +
                        hexVal (hexDigitChar (c.toNat % 16)) = c.toNat := by
                      rw [hhv1, hhv2, show hexVal '0' = 0 from rfl]
                      omega
                    simp only [List.cons_append, List.nil_append]
                    rw [parseStrF_u, if_pos (by rw [hhx1, hhx2]; decide)]
                    rw [hv, if_neg (by omega), ihcs, except_ok_bind,
                      Char.ofNat_toNat]
        · -- plain character, emitted literally
          have hesc : escChar c = [c] := by
            rw [escChar, if_neg h1, if_neg h2,
              if_neg (fun he => by subst he; simp at hlt),
              if_neg (fun he => by subst he; simp at hlt),
              if_neg (fun he => by subst he; simp at hlt),
              if_neg (fun he => by subst he; simp at hlt),
              if_neg (fun he => by subst he; simp at hlt), if_neg hlt]
          rw [hstep, hesc]
          simp only [List.cons_append, List.nil_append, parseStrF]
          rw [if_neg h2, if_neg h1, if_neg hlt, ihcs]
          rfl

/-! ### Shape facts about printed output -/

theorem escChar_length_pos (c : Char) : 0 < (escChar c).length := by
  rw [escChar]
  repeat' split
  all_goals simp

theorem escapeStr_length (s : Str) : s.length + 1 ≤ (escapeStr s).length := by
  induction s with
  | nil => simp [escapeStr]
  | cons c cs ih =>
    rw [escapeStr, List.length_append, List.length_cons]
    have := escChar_length_pos c
    omega

theorem dumpVal_head (d : Nat) (v : Json) :
    ∃ c cs, dumpVal d v = c :: cs ∧
      (c = 'n' ∨ c = 't' ∨ c = 'f' ∨ c = '"' ∨ c = '[' ∨ c = '{' ∨ c = '-' ∨
       c.isDigit = true) := by
  cases v with
  | null => exact ⟨'n', _, rfl, by simp⟩
  | bool b =>
    cases b with
    | false => exact ⟨'f', _, rfl, by simp⟩
    | true => exact ⟨'t', _, rfl, by simp⟩
  | int n =>
    obtain ⟨c, cs, hval, hc⟩ := intRepr_digits_or_neg n
    exact ⟨c, cs, hval, by tauto⟩
  | str s => exact ⟨'"', _, rfl, by simp⟩
  | arr xs =>
    cases xs with
    | nil => exact ⟨'[', _, rfl, by simp⟩
    | cons x tl => exact ⟨'[', _, rfl, by simp⟩
  | obj kvs =>
    cases kvs with
    | nil => exact ⟨'{', _, rfl, by simp⟩
    | cons k v tl => exact ⟨'{', _, rfl, by simp⟩

/-- The characters a value can start with are not whitespace and are
none of the delimiter characters the container loops look for. -/
theorem dumpVal_head_facts (d : Nat) (v : Json) :
    ∃ c cs, dumpVal d v = c :: cs ∧ isJsonWs c = false ∧
      c ≠ ']' ∧ c ≠ '}' ∧ c ≠ ',' ∧ c ≠ ':' := by
  obtain ⟨c, cs, hval, hc⟩ := dumpVal_head d v
  refine ⟨c, cs, hval, ?_, ?_, ?_, ?_, ?_⟩
  · rcases hc with h | h | h | h | h | h | h | h
    all_goals first
      | (subst h; decide)
      | exact (isDigit_ne c h).2.2.2.2.2.2.2.2.2.2.2
  · rcases hc with h | h | h | h | h | h | h | h
    all_goals first
      | (subst h; decide)
      | exact (isDigit_ne c h).2.2.2.2.2.2.2.1
  · rcases hc with h | h | h | h | h | h | h | h
    all_goals first
      | (subst h; decide)
      | exact (isDigit_ne c h).2.2.2.2.2.2.2.2.2.1
  · rcases hc with h | h | h | h | h | h | h | h
    all_goals first
      | (subst h; decide)
      | exact (isDigit_ne c h).2.2.2.2.2.2.2.2.1
  · rcases hc with h | h | h | h | h | h | h | h
    all_goals first
      | (subst h; decide)
      | exact (isDigit_ne c h).2.2.2.2.2.2.2.2.2.2.1

theorem items_decomp : ∀ (tl : JArr) (x : Json) (d : Nat) (rest : Str),
    (dumpItems (d + 1) (.cons x tl) ++ nlIndent d ++ ']' :: rest : Str) =
      dumpVal (d + 1) x ++ arrTailStr d tl rest
  | .nil, x, d, rest => by
    rw [dumpItems, arrTailStr, List.append_assoc]
  | .cons y tl2, x, d, rest => by
    rw [dumpItems, arrTailStr]
    rw [show (dumpVal (d + 1) x ++ ',' :: nlIndent (d + 1) ++
        dumpItems (d + 1) (.cons y tl2) ++ nlIndent d ++ ']' :: rest : Str) =
      dumpVal (d + 1) x ++ ',' :: nlIndent (d + 1) ++
        (dumpItems (d + 1) (.cons y tl2) ++ nlIndent d ++ ']' :: rest) from by
      simp [List.append_assoc]]
    rw [items_decomp tl2 y d rest]
    simp [List.append_assoc]

theorem members_decomp : ∀ (tl : JObj) (k : Str) (v : Json) (d : Nat) (rest : Str),
    (dumpMembers (d + 1) (.cons k v tl) ++ nlIndent d ++ '}' :: rest : Str) =
      encodeString k ++ ':' :: ' ' :: dumpVal (d + 1) v ++ objTailStr d tl rest
  | .nil, k, v, d, rest => by
    rw [dumpMembers, objTailStr]
    simp [List.append_assoc]
  | .cons k2 v2 tl2, k, v, d, rest => by
    rw [dumpMembers, objTailStr]
    rw [show (encodeString k ++ ':' :: ' ' :: dumpVal (d + 1) v ++
        ',' :: nlIndent (d + 1) ++ dumpMembers (d + 1) (.cons k2 v2 tl2) ++
        nlIndent d ++ '}' :: rest : Str) =
      encodeString k ++ ':' :: ' ' :: dumpVal (d + 1) v ++ ',' :: nlIndent (d + 1) ++
        (dumpMembers (d + 1) (.cons k2 v2 tl2) ++ nlIndent d ++ '}' :: rest) from by
      simp [List.append_assoc]]
    rw [members_decomp tl2 k2 v2 d rest]
    simp [List.append_assoc]

theorem arrTailStr_head (d : Nat) (xs : JArr) (rest : Str) :
    ∃ t, arrTailStr d xs rest = '\n' :: t ∨ arrTailStr d xs rest = ',' :: t := by
  cases xs with
  | nil => exact ⟨List.replicate (2 * d) ' ' ++ ']' :: rest, Or.inl rfl⟩
  | cons y tl => exact ⟨_, Or.inr rfl⟩

theorem objTailStr_head (d : Nat) (kvs : JObj) (rest : Str) :
    ∃ t, objTailStr d kvs rest = '\n' :: t ∨ objTailStr d kvs rest = ',' :: t := by
  cases kvs with
  | nil => exact ⟨List.replicate (2 * d) ' ' ++ '}' :: rest, Or.inl rfl⟩
  | cons k v tl => exact ⟨_, Or.inr rfl⟩

theorem arrTailStr_noDigitHead (d : Nat) (xs : JArr) (rest : Str) :
    noDigitHead (arrTailStr d xs rest) := by
  obtain ⟨t, h | h⟩ := arrTailStr_head d xs rest <;>
    (rw [h]; intro c hc; cases hc; decide)

theorem objTailStr_noDigitHead (d : Nat) (kvs : JObj) (rest : Str) :
    noDigitHead (objTailStr d kvs rest) := by
  obtain ⟨t, h | h⟩ := objTailStr_head d kvs rest <;>
    (rw [h]; intro c hc; cases hc; decide)

/-! ### Duplicate-free objects pass through `dict(pairs)` unchanged -/

theorem appendO_nil : ∀ (a : JObj), a.appendO .nil = a
  | .nil => rfl
  | .cons k v tl => by rw [JObj.appendO, appendO_nil tl]

theorem appendO_assoc : ∀ (a b c : JObj),
    (a.appendO b).appendO c = a.appendO (b.appendO c)
  | .nil, _, _ => rfl
  | .cons k v tl, b, c => by
    rw [JObj.appendO, JObj.appendO, JObj.appendO, appendO_assoc tl b c]

theorem hasKey_cons (k : Str) (v : Json) (tl : JObj) (k2 : Str) :
    (JObj.cons k v tl).hasKey k2 = (decide (k = k2) || tl.hasKey k2) := by
  rw [JObj.hasKey, JObj.lookup]
  by_cases h : k = k2
  · simp [h]
  · simp [h, JObj.hasKey]

theorem hasKey_appendO : ∀ (a b : JObj) (k : Str),
    (a.appendO b).hasKey k = (a.hasKey k || b.hasKey k)
  | .nil, b, k => by simp [JObj.appendO, JObj.hasKey, JObj.lookup]
  | .cons k2 v tl, b, k => by
    rw [JObj.appendO, hasKey_cons, hasKey_cons, hasKey_appendO tl b k, Bool.or_assoc]

theorem objInsert_fresh : ∀ (acc : JObj) (k : Str) (v : Json),
    acc.hasKey k = false → objInsert acc k v = acc.appendO (.cons k v .nil)
  | .nil, _, _, _ => rfl
  | .cons k2 v2 tl, k, v, h => by
    rw [hasKey_cons, Bool.or_eq_false_iff] at h
    rw [objInsert, JObj.appendO, if_neg (by simpa using h.1),
      objInsert_fresh tl k v h.2]

theorem jdictAux_fresh : ∀ (rest acc : JObj), nodupKeys rest = true →
    (∀ k, rest.hasKey k = true → acc.hasKey k = false) →
    jdictAux acc rest = acc.appendO rest
  | .nil, acc, _, _ => by rw [jdictAux, appendO_nil]
  | .cons k v tl, acc, hnd0, hfresh => by
    have hnd : (!tl.hasKey k && nodupKeys tl) = true := hnd0
    rw [Bool.and_eq_true] at hnd
    have hk : acc.hasKey k = false :=
      hfresh k (by rw [hasKey_cons]; simp)
    rw [jdictAux, objInsert_fresh acc k v hk]
    rw [jdictAux_fresh tl (acc.appendO (.cons k v .nil)) hnd.2 ?_]
    · rw [appendO_assoc]
      rfl
    · intro k2 h2
      rw [hasKey_appendO, hasKey_cons]
      have hacc := hfresh k2 (by rw [hasKey_cons, h2]; simp)
      have hkk2 : ¬ k = k2 := by
        intro he
        subst he
        rw [h2] at hnd
        simpa using hnd.1
      have hnone : acc.lookup k2 = none := by
        rcases hL : acc.lookup k2 with _ | v2
        · rfl
        · rw [JObj.hasKey, hL] at hacc
          simp at hacc
      simp [hacc, hkk2, JObj.hasKey, hnone, JObj.lookup]

theorem jdict_nodup (kvs : JObj) (h : nodupKeys kvs = true) : jdict kvs = kvs := by
  rw [jdict, jdictAux_fresh kvs .nil h (fun k _ => rfl)]
  rfl

/-! ### The round trip -/

theorem parseVal_ws (f : Nat) (w s : Str) (hw : ∀ c ∈ w, isJsonWs c = true)
    (hf : 0 < f) : parseVal f (w ++ s) = parseVal f s := by
  obtain ⟨f', rfl⟩ : ∃ f', f = f' + 1 := ⟨f - 1, by omega⟩
  simp only [parseVal, skipWs_append_ws w s hw]

theorem parseVal_null (f : Nat) (X : Str) :
    parseVal (f + 1) ('n' :: 'u' :: 'l' :: 'l' :: X) = .ok (.null, X) := rfl

theorem parseVal_false (f : Nat) (X : Str) :
    parseVal (f + 1) ('f' :: 'a' :: 'l' :: 's' :: 'e' :: X) = .ok (.bool false, X) := rfl

theorem parseVal_true (f : Nat) (X : Str) :
    parseVal (f + 1) ('t' :: 'r' :: 'u' :: 'e' :: X) = .ok (.bool true, X) := rfl

theorem parseVal_empty_arr (f : Nat) (X : Str) :
    parseVal (f + 1) ('[' :: ']' :: X) = .ok (.arr .nil, X) := rfl

theorem parseVal_empty_obj (f : Nat) (X : Str) :
    parseVal (f + 1) ('{' :: '}' :: X) = .ok (.obj .nil, X) := rfl

theorem parseVal_quote (f : Nat) (X : Str) :
    parseVal (f + 1) ('"' :: X) = (do
      let q ← parseStrF f X
      Except.ok (Json.str q.1, q.2)) := rfl

theorem parseVal_lbrack (f : Nat) (X : Str) :
    parseVal (f + 1) ('[' :: X) =
      (if headIs (skipWs X) ']' then .ok (.arr .nil, (skipWs X).tail)
       else do
         let q ← parseVal f (skipWs X)
         let q2 ← parseArrTail f q.2
         Except.ok (Json.arr (JArr.cons q.1 q2.1), q2.2)) := rfl

theorem parseVal_lbrace (f : Nat) (X : Str) :
    parseVal (f + 1) ('{' :: X) =
      (if headIs (skipWs X) '}' then .ok (.obj .nil, (skipWs X).tail)
       else do
         let q ← parseMembers f (skipWs X)
         Except.ok (Json.obj (jdict q.1), q.2)) := rfl

mutual
theorem rt_val (v : Json) (d f : Nat) (rest : Str)
    (hnd : dictNodup v = true) (hdg : noDigitHead rest)
    (hlen : (dumpVal d v ++ rest).length < f) :
    parseVal f (dumpVal d v ++ rest) = .ok (v, rest) := by
  obtain ⟨f', rfl⟩ : ∃ f', f = f' + 1 := ⟨f - 1, by omega⟩
  cases v with
  | null =>
    simp only [dumpVal, List.cons_append, List.nil_append]
    exact parseVal_null f' rest
  | bool b => cases b with
    | false =>
      simp only [dumpVal, List.cons_append, List.nil_append]
      exact parseVal_false f' rest
    | true =>
      simp only [dumpVal, List.cons_append, List.nil_append]
      exact parseVal_true f' rest
  | int n =>
    obtain ⟨c, cs, hcv, hcd⟩ := intRepr_digits_or_neg n
    have hflat : dumpVal d (.int n) ++ rest = c :: (cs ++ rest) := by
      rw [dumpVal, hcv, List.cons_append]
    have hws : isJsonWs c = false := by
      rcases hcd with h | h
      · subst h; decide
      · exact (isDigit_ne c h).2.2.2.2.2.2.2.2.2.2.2
    have hne : c ≠ '{' ∧ c ≠ '[' ∧ c ≠ '"' ∧ c ≠ 'n' ∧ c ≠ 't' ∧ c ≠ 'f' := by
      rcases hcd with h | h
      · subst h; exact ⟨by decide, by decide, by decide, by decide, by decide, by decide⟩
      · obtain ⟨a1, a2, a3, a4, a5, a6, _⟩ := isDigit_ne c h
        exact ⟨a1, a2, a3, a4, a5, a6⟩
    have hsk : skipWs (dumpVal d (.int n) ++ rest) = c :: (cs ++ rest) := by
      rw [hflat]
      exact skipWs_cons_not_ws c _ hws
    simp only [parseVal, hsk]
    rw [if_neg hne.1, if_neg hne.2.1, if_neg hne.2.2.1, if_neg hne.2.2.2.1,
      if_neg hne.2.2.2.2.1, if_neg hne.2.2.2.2.2,
      if_pos (show (c = '-' || c.isDigit) = true by
        rcases hcd with h | h
        · simp [h]
        · simp [h])]
    rw [show (c :: (cs ++ rest) : Str) = intRepr n ++ rest from by
      rw [hcv, List.cons_append]]
    rw [parseIntTok_intRepr n rest hdg, except_ok_bind]
  | str s =>
    have hsk : skipWs (dumpVal d (.str s) ++ rest) =
        '"' :: (escapeStr s ++ rest) := by
      rw [dumpVal, encodeString, List.cons_append]
      rfl
    have hlen2 : s.length < f' := by
      rw [dumpVal, encodeString] at hlen
      have := escapeStr_length s
      simp only [List.cons_append, List.length_cons, List.length_append] at hlen
      omega
    rw [show dumpVal d (.str s) ++ rest = '"' :: (escapeStr s ++ rest) from by
      rw [dumpVal, encodeString, List.cons_append]]
    rw [parseVal_quote, rt_escapeStr s f' rest hlen2, except_ok_bind]
  | arr xs =>
    cases xs with
    | nil =>
      simp only [dumpVal, List.cons_append, List.nil_append]
      exact parseVal_empty_arr f' rest
    | cons x tl =>
      have hx : dictNodup x = true ∧ dictNodupA tl = true := by
        rw [dictNodup, dictNodupA, Bool.and_eq_true] at hnd
        exact hnd
      have hflat : dumpVal d (.arr (.cons x tl)) ++ rest =
          '[' :: (nlIndent (d + 1) ++ (dumpVal (d + 1) x ++ arrTailStr d tl rest)) := by
        rw [dumpVal, ← items_decomp tl x d rest]
        simp [List.append_assoc]
      have hsk : skipWs (dumpVal d (.arr (.cons x tl)) ++ rest) =
          '[' :: (nlIndent (d + 1) ++ (dumpVal (d + 1) x ++ arrTailStr d tl rest)) := by
        rw [hflat]
        rfl
      obtain ⟨c0, cs0, hc0, hws0, hne1, _, _, _⟩ := dumpVal_head_facts (d + 1) x
      have hs1 : skipWs (nlIndent (d + 1) ++ (dumpVal (d + 1) x ++ arrTailStr d tl rest)) =
          dumpVal (d + 1) x ++ arrTailStr d tl rest := by
        rw [skipWs_append_ws _ _ (nlIndent_ws (d + 1)), hc0, List.cons_append,
          skipWs_cons_not_ws _ _ hws0, ← List.cons_append, ← hc0]
      have hhead : headIs (dumpVal (d + 1) x ++ arrTailStr d tl rest) ']' = false := by
        rw [hc0, List.cons_append, headIs_cons]
        simpa using hne1
      have hlen2 : (dumpVal (d + 1) x ++ arrTailStr d tl rest).length < f' := by
        rw [hflat] at hlen
        simp only [List.length_cons, List.length_append, nlIndent,
          List.length_replicate] at hlen ⊢
        omega
      have hlen3 : (arrTailStr d tl rest).length < f' := by
        rw [hflat] at hlen
        simp only [List.length_cons, List.length_append, nlIndent,
          List.length_replicate] at hlen ⊢
        have := List.length_pos.mpr (show dumpVal (d + 1) x ≠ [] by
          rw [hc0]; simp)
        omega
      rw [hflat, parseVal_lbrack, hs1, hhead]
      simp only [Bool.false_eq_true, if_false]
      rw [rt_val x (d + 1) f' (arrTailStr d tl rest) hx.1
        (arrTailStr_noDigitHead d tl rest) hlen2, except_ok_bind,
        rt_arrTail tl d f' rest hx.2 hlen3, except_ok_bind]
  | obj kvs =>
    cases kvs with
    | nil =>
      simp only [dumpVal, List.cons_append, List.nil_append]
      exact parseVal_empty_obj f' rest
    | cons k v tl =>
      have hsplit : nodupKeys (.cons k v tl) = true ∧ dictNodup v = true ∧
          dictNodupO tl = true := by
        rw [dictNodup, Bool.and_eq_true] at hnd
        have h2 : (dictNodup v && dictNodupO tl) = true := hnd.2
        rw [Bool.and_eq_true] at h2
        exact ⟨hnd.1, h2.1, h2.2⟩
      have hflat : dumpVal d (.obj (.cons k v tl)) ++ rest =
          '{' :: (nlIndent (d + 1) ++
            (encodeString k ++ ':' :: ' ' :: dumpVal (d + 1) v ++ objTailStr d tl rest)) := by
        rw [dumpVal, ← members_decomp tl k v d rest]
        simp [List.append_assoc]
      have hsk : skipWs (dumpVal d (.obj (.cons k v tl)) ++ rest) =
          '{' :: (nlIndent (d + 1) ++
            (encodeString k ++ ':' :: ' ' :: dumpVal (d + 1) v ++ objTailStr d tl rest)) := by
        rw [hflat]
        rfl
      have hs1 : skipWs (nlIndent (d + 1) ++
            (encodeString k ++ ':' :: ' ' :: dumpVal (d + 1) v ++ objTailStr d tl rest)) =
          encodeString k ++ ':' :: ' ' :: dumpVal (d + 1) v ++ objTailStr d tl rest := by
        rw [skipWs_append_ws _ _ (nlIndent_ws (d + 1))]
        rw [show (encodeString k ++ ':' :: ' ' :: dumpVal (d + 1) v ++
            objTailStr d tl rest : Str) =
          '"' :: (escapeStr k ++ (':' :: ' ' :: dumpVal (d + 1) v ++ objTailStr d tl rest))
          from by simp [encodeString, List.append_assoc]]
        rfl
      have hhead : headIs (encodeString k ++ ':' :: ' ' :: dumpVal (d + 1) v ++
          objTailStr d tl rest) '}' = false := by
        rw [show (encodeString k ++ ':' :: ' ' :: dumpVal (d + 1) v ++
            objTailStr d tl rest : Str) =
          '"' :: (escapeStr k ++ (':' :: ' ' :: dumpVal (d + 1) v ++ objTailStr d tl rest))
          from by simp [encodeString, List.append_assoc]]
        rfl
      have hlen2 : (encodeString k ++ ':' :: ' ' :: dumpVal (d + 1) v ++
          objTailStr d tl rest).length < f' := by
        rw [hflat] at hlen
        simp only [List.length_cons, List.length_append, nlIndent,
          List.length_replicate] at hlen ⊢
        omega
      rw [hflat, parseVal_lbrace, hs1, hhead]
      simp only [Bool.false_eq_true, if_false]
      rw [rt_members k v tl d f' rest hsplit.2.1 hsplit.2.2 hlen2, except_ok_bind,
        jdict_nodup _ hsplit.1]
termination_by sizeOf v

theorem rt_arrTail (xs : JArr) (d f : Nat) (rest : Str)
    (hnd : dictNodupA xs = true)
    (hlen : (arrTailStr d xs rest).length < f) :
    parseArrTail f (arrTailStr d xs rest) = .ok (xs, rest) := by
  obtain ⟨f', rfl⟩ : ∃ f', f = f' + 1 := ⟨f - 1, by omega⟩
  cases xs with
  | nil =>
    have hsk : skipWs (arrTailStr d .nil rest) = ']' :: rest := by
      rw [arrTailStr, skipWs_append_ws _ _ (nlIndent_ws d)]
      rfl
    simp only [parseArrTail, hsk]
    rw [if_pos (show headIs ((']' :: rest : Str)) ']' = true from rfl)]
    rfl
  | cons y tl =>
    have hy : dictNodup y = true ∧ dictNodupA tl = true := by
      rw [dictNodupA, Bool.and_eq_true] at hnd
      exact hnd
    have hsk : skipWs (arrTailStr d (.cons y tl) rest) =
        ',' :: (nlIndent (d + 1) ++ dumpVal (d + 1) y ++ arrTailStr d tl rest) := by
      rw [arrTailStr]
      rfl
    have htail : parseVal f' (nlIndent (d + 1) ++ dumpVal (d + 1) y ++ arrTailStr d tl rest) =
        parseVal f' (dumpVal (d + 1) y ++ arrTailStr d tl rest) := by
      rw [List.append_assoc]
      exact parseVal_ws f' _ _ (nlIndent_ws (d + 1)) (by
        rw [arrTailStr] at hlen
        simp only [List.length_cons] at hlen
        omega)
    have hlen2 : (dumpVal (d + 1) y ++ arrTailStr d tl rest).length < f' := by
      rw [arrTailStr] at hlen
      simp only [List.length_cons, List.length_append, nlIndent,
        List.length_replicate] at hlen ⊢
      omega
    have hlen3 : (arrTailStr d tl rest).length < f' := by
      rw [arrTailStr] at hlen
      obtain ⟨c0, cs0, hc0, _, _, _, _, _⟩ := dumpVal_head_facts (d + 1) y
      simp only [List.length_cons, List.length_append, nlIndent,
        List.length_replicate] at hlen ⊢
      have := List.length_pos.mpr (show dumpVal (d + 1) y ≠ [] by rw [hc0]; simp)
      omega
    simp only [parseArrTail, hsk]
    rw [if_pos (show headIs ((',' :: (nlIndent (d + 1) ++ dumpVal (d + 1) y ++
      arrTailStr d tl rest) : Str)) ',' = true from rfl)]
    show (do
      let q ← parseVal f' (nlIndent (d + 1) ++ dumpVal (d + 1) y ++ arrTailStr d tl rest)
      let q2 ← parseArrTail f' q.2
      pure (JArr.cons q.1 q2.1, q2.2)) = Except.ok (JArr.cons y tl, rest)
    rw [htail, rt_val y (d + 1) f' (arrTailStr d tl rest) hy.1
      (arrTailStr_noDigitHead d tl rest) hlen2, except_ok_bind,
      rt_arrTail tl d f' rest hy.2 hlen3, except_ok_bind]
    rfl
termination_by sizeOf xs

theorem rt_members (k : Str) (v : Json) (tl : JObj) (d f : Nat) (rest : Str)
    (hv : dictNodup v = true) (htl : dictNodupO tl = true)
    (hlen : (encodeString k ++ ':' :: ' ' :: dumpVal (d + 1) v ++
      objTailStr d tl rest).length < f) :
    parseMembers f (encodeString k ++ ':' :: ' ' :: dumpVal (d + 1) v ++
      objTailStr d tl rest) = .ok (.cons k v tl, rest) := by
  obtain ⟨f', rfl⟩ : ∃ f', f = f' + 1 := ⟨f - 1, by omega⟩
  have hM : (encodeString k ++ ':' :: ' ' :: dumpVal (d + 1) v ++
      objTailStr d tl rest : Str) =
      '"' :: (escapeStr k ++
        (':' :: ' ' :: (dumpVal (d + 1) v ++ objTailStr d tl rest))) := by
    simp [encodeString, List.append_assoc]
  have hlenk : k.length < f' := by
    rw [hM] at hlen
    have := escapeStr_length k
    simp only [List.length_cons, List.length_append] at hlen
    omega
  have hlenv : (dumpVal (d + 1) v ++ objTailStr d tl rest).length < f' := by
    rw [hM] at hlen
    have := escapeStr_length k
    simp only [List.length_cons, List.length_append] at hlen ⊢
    omega
  rw [hM]
  simp only [parseMembers]
  rw [if_pos (show headIs (('"' :: (escapeStr k ++
    (':' :: ' ' :: (dumpVal (d + 1) v ++ objTailStr d tl rest))) : Str)) '"' = true from rfl)]
  show (do
    let q ← parseStrF f' (escapeStr k ++
      (':' :: ' ' :: (dumpVal (d + 1) v ++ objTailStr d tl rest)))
    (if headIs (skipWs q.2) ':' = true then do
      let q2 ← parseVal f' (skipWs q.2).tail
      (if headIs (skipWs q2.2) '}' = true then
        Except.ok (JObj.cons q.1 q2.1 .nil, (skipWs q2.2).tail)
      else if headIs (skipWs q2.2) ',' = true then do
        let q3 ← parseMembers f' (skipWs ((skipWs q2.2).tail))
        Except.ok (JObj.cons q.1 q2.1 q3.1, q3.2)
      else Except.error ("Expecting comma delimiter", skipWs q2.2))
    else Except.error ("Expecting colon delimiter", skipWs q.2))) =
    Except.ok (JObj.cons k v tl, rest)
  rw [rt_escapeStr k f' _ hlenk, except_ok_bind]
  show (if headIs (skipWs (':' :: ' ' ::
      (dumpVal (d + 1) v ++ objTailStr d tl rest))) ':' = true then _ else _) = _
  rw [show skipWs (':' :: ' ' :: (dumpVal (d + 1) v ++ objTailStr d tl rest)) =
    ':' :: ' ' :: (dumpVal (d + 1) v ++ objTailStr d tl rest) from rfl]
  rw [if_pos (show headIs ((':' :: ' ' :: (dumpVal (d + 1) v ++
    objTailStr d tl rest) : Str)) ':' = true from rfl)]
  have hval : parseVal f' ((':' :: ' ' ::
      (dumpVal (d + 1) v ++ objTailStr d tl rest) : Str).tail) =
      .ok (v, objTailStr d tl rest) := by
    show parseVal f' (' ' :: (dumpVal (d + 1) v ++ objTailStr d tl rest)) = _
    rw [show (' ' :: (dumpVal (d + 1) v ++ objTailStr d tl rest) : Str) =
      [' '] ++ (dumpVal (d + 1) v ++ objTailStr d tl rest) from rfl]
    rw [parseVal_ws f' [' '] _
      (by intro c hc; cases hc with | head => decide | tail _ h => cases h) (by omega)]
    exact rt_val v (d + 1) f' (objTailStr d tl rest) hv
      (objTailStr_noDigitHead d tl rest) (by
        simp only [List.length_append] at hlenv ⊢
        omega)
  rw [hval, except_ok_bind]
  cases tl with
  | nil =>
    rw [show skipWs (objTailStr d .nil rest) = '}' :: rest from by
      rw [objTailStr, skipWs_append_ws _ _ (nlIndent_ws d)]; rfl]
    rw [if_pos (show headIs (('}' :: rest : Str)) '}' = true from rfl)]
    rfl
  | cons k2 v2 tl2 =>
    have h2 : dictNodup v2 = true ∧ dictNodupO tl2 = true := by
      rw [dictNodupO, Bool.and_eq_true] at htl
      exact htl
    rw [show skipWs (objTailStr d (.cons k2 v2 tl2) rest) =
      ',' :: (nlIndent (d + 1) ++ encodeString k2 ++ ':' :: ' ' :: dumpVal (d + 1) v2 ++
        objTailStr d tl2 rest) from by rw [objTailStr]; rfl]
    rw [show headIs ((',' :: (nlIndent (d + 1) ++ encodeString k2 ++
      ':' :: ' ' :: dumpVal (d + 1) v2 ++ objTailStr d tl2 rest) : Str)) '}' = false from rfl]
    simp only [Bool.false_eq_true, if_false]
    rw [if_pos (show headIs ((',' :: (nlIndent (d + 1) ++ encodeString k2 ++
      ':' :: ' ' :: dumpVal (d + 1) v2 ++ objTailStr d tl2 rest) : Str)) ',' = true from rfl)]
    have hskip2 : skipWs ((',' :: (nlIndent (d + 1) ++ encodeString k2 ++
        ':' :: ' ' :: dumpVal (d + 1) v2 ++ objTailStr d tl2 rest) : Str).tail) =
        encodeString k2 ++ ':' :: ' ' :: dumpVal (d + 1) v2 ++ objTailStr d tl2 rest := by
      show skipWs (nlIndent (d + 1) ++ encodeString k2 ++
        ':' :: ' ' :: dumpVal (d + 1) v2 ++ objTailStr d tl2 rest) = _
      rw [show (nlIndent (d + 1) ++ encodeString k2 ++
          ':' :: ' ' :: dumpVal (d + 1) v2 ++ objTailStr d tl2 rest : Str) =
        nlIndent (d + 1) ++ (encodeString k2 ++ ':' :: ' ' :: dumpVal (d + 1) v2 ++
          objTailStr d tl2 rest) from by simp [List.append_assoc]]
      rw [skipWs_append_ws _ _ (nlIndent_ws (d + 1))]
      rw [show (encodeString k2 ++ ':' :: ' ' :: dumpVal (d + 1) v2 ++
          objTailStr d tl2 rest : Str) =
        '"' :: (escapeStr k2 ++ (':' :: ' ' :: dumpVal (d + 1) v2 ++
          objTailStr d tl2 rest)) from by simp [encodeString, List.append_assoc]]
      rfl
    rw [hskip2]
    have hlen4 : (encodeString k2 ++ ':' :: ' ' :: dumpVal (d + 1) v2 ++
        objTailStr d tl2 rest).length < f' := by
      have hself : (objTailStr d (.cons k2 v2 tl2) rest).length =
          1 + (nlIndent (d + 1)).length +
          (encodeString k2 ++ ':' :: ' ' :: dumpVal (d + 1) v2 ++
            objTailStr d tl2 rest).length := by
        rw [objTailStr]
        simp [List.length_append]
        omega
      have hle : (objTailStr d (.cons k2 v2 tl2) rest).length ≤
          (dumpVal (d + 1) v ++ objTailStr d (.cons k2 v2 tl2) rest).length := by
        simp [List.length_append]
      simp only [nlIndent, List.length_cons, List.length_replicate] at hself
      omega
    rw [rt_members k2 v2 tl2 d f' rest h2.1 h2.2 hlen4, except_ok_bind]
termination_by sizeOf v + sizeOf tl + 1
end

/-- C10: Round-trip. For every dictionary value (a JSON object whose keys
are unique at every nesting level, as Python dict keys are by
construction), strict-parsing the display-formatted output of
`JSONHandler.format_json` (2-space indentation, non-ASCII left unescaped)
with `json.loads` recovers exactly the original value: formatting for
display loses no information from the parsed value. -/
theorem C10_format_roundtrip (kvs : JObj)
    (hnd : dictNodup (Json.obj kvs) = true) :
    json_loads (JSONHandler.format_json (Json.obj kvs)) = .ok (Json.obj kvs) := by
  have h := rt_val (Json.obj kvs) 0
    ((JSONHandler.format_json (Json.obj kvs)).length + 1) [] hnd
    (fun c hc => by simp at hc)
    (by simp [JSONHandler.format_json])
  rw [List.append_nil] at h
  simp only [json_loads, JSONHandler.format_json] at h ⊢
  rw [h]
  rfl

/-- Witness for C10 at a concrete three-key dictionary holding an int, an
array of mixed scalars and a nested object. -/
theorem C10_format_roundtrip_witness :
    dictNodup (Json.obj (.cons ['a'] (Json.int 1)
      (.cons ['b'] (Json.arr (.cons (Json.bool true)
        (.cons Json.null (.cons (Json.str ['x']) .nil))))
      (.cons ['c'] (Json.obj (.cons ['d'] (Json.int (-2)) .nil)) .nil)))) = true ∧
    json_loads (JSONHandler.format_json (Json.obj (.cons ['a'] (Json.int 1)
      (.cons ['b'] (Json.arr (.cons (Json.bool true)
        (.cons Json.null (.cons (Json.str ['x']) .nil))))
      (.cons ['c'] (Json.obj (.cons ['d'] (Json.int (-2)) .nil)) .nil))))) =
      .ok (Json.obj (.cons ['a'] (Json.int 1)
      (.cons ['b'] (Json.arr (.cons (Json.bool true)
        (.cons Json.null (.cons (Json.str ['x']) .nil))))
      (.cons ['c'] (Json.obj (.cons ['d'] (Json.int (-2)) .nil)) .nil)))) :=
  ⟨by decide, C10_format_roundtrip _ (by decide)⟩
